import Mathlib

/-!
# A shallow embedding of PISA's parallel forward-index builder

This file models `src/include/pisa/forward_index_builder.hpp` (namespace
`pisa`): the HTML/plaintext content splitters, the batch processor
(`Forward_Index_Builder::run`), the balanced span-stack term merger
(`collect_terms`), the id remapper and batch concatenator (`merge`), and
the ingestion driver (`build`).

Modelling conventions:
* files are modelled at record level: a text sidecar file is a `List String`
  of its lines, the binary index file is a `List Nat` of its little-endian
  32-bit words (word values stay below `2 ^ 32` for any realizable input,
  so no explicit truncation is inserted where the C++ stores a `uint32_t`);
* `std::string` comparison (`char_traits<char>::compare`, i.e. unsigned
  byte-wise lexicographic order, which on valid UTF-8 coincides with
  code-point lexicographic order) is modelled by the structed comparison
  `charsLt` on the code-point list of the string;
* the gsl `Expects` assertion in `collect_terms` and the `std::abort` call
  in `build` are modelled by returning `none`;
* the TBB task group runs each batch worker on a private set of files keyed
  by the batch number, and `merge` reads them back in batch-number order, so
  the driver is modelled by running the batches sequentially in dispatch
  order; `threads` only gates the startup check and sizes the bounded queue.
-/

namespace PisaFwd

/-- `pisa::Document_Record`: the polymorphic record interface with the four
accessors `content`, `trecid`, `url`, `valid`. -/
structure Document_Record where
  trecid : String
  url : String
  content : String
  valid : Bool
deriving Repr, DecidableEq, Inhabited

/-! ## String order

`std::string::operator<` compares with `char_traits<char>::compare`
(`memcmp` semantics: unsigned bytes), then by length. On valid UTF-8 this
order agrees with lexicographic comparison of the code-point sequences,
which is what `charsLt` computes. -/

/-- Lexicographic strict order on code-point lists. -/
def charsLt : List Char → List Char → Bool
  | _, [] => false
  | [], _ :: _ => true
  | a :: as, b :: bs =>
    if a < b then true else if b < a then false else charsLt as bs

/-- `lhs < rhs` on `std::string`. -/
def sLt (a b : String) : Bool := charsLt a.data b.data

/-- `lhs ≤ rhs` on `std::string` (i.e. `!(rhs < lhs)`). -/
def sLe (a b : String) : Bool := !sLt b a

/-- The strict string order as a relation. -/
def ltP (a b : String) : Prop := sLt a b = true

/-- The non-strict string order as a relation (the comparator the sorts and
merges of `collect_terms` are stable under). -/
def leP (a b : String) : Prop := sLe a b = true

instance : DecidableRel ltP := fun a b => instDecidableEqBool (sLt a b) true

instance : DecidableRel leP := fun a b => instDecidableEqBool (sLe a b) true

/-- A list sorted non-strictly under the string order. -/
def SortedLe (l : List String) : Prop := l.Pairwise leP

/-- A list sorted strictly (increasing, duplicate-free) under the string
order. -/
def SortedLt (l : List String) : Prop := l.Pairwise ltP

/-! ## Content splitters (`parse_plaintext_content`, `parse_html_content`)

A splitter callback `process_content(content, process)` calls `process` on
each emitted raw term in document order; it is modelled as a function from
the content string to the list of emitted terms. -/

/-- `std::isspace` in the C locale: space, `\t`, `\n`, `\v`, `\f`, `\r`. -/
def cIsSpace (c : Char) : Bool :=
  c = ' ' || c = '\t' || c = '\n' || c = '\x0b' || c = '\x0c' || c = '\r'

/-- `std::isalnum` in the C locale (ASCII letters and digits). -/
def cIsAlnum (c : Char) : Bool :=
  c.isAlpha || c.isDigit

/-- The extraction loop of `parse_plaintext_content`: `content_stream >> term`
skips whitespace and reads a maximal non-whitespace run, until exhaustion.
`fuel` bounds the number of loop steps (each step consumes at least one
character, so the initial length suffices); the fuel-exhausted case is
unreachable from `wsTokens`. -/
def wsFuel : Nat → List Char → List String
  | _, [] => []
  | 0, _ :: _ => []
  | fuel + 1, c :: cs =>
    if cIsSpace c then wsFuel fuel cs
    else String.mk (c :: cs.takeWhile (fun d => !cIsSpace d))
         :: wsFuel fuel (cs.dropWhile (fun d => !cIsSpace d))

/-- The extraction loop, started with enough fuel. -/
def wsTokens (l : List Char) : List String := wsFuel l.length l

/-- `parse_plaintext_content` as a string-to-terms function. -/
def parse_plaintext_content (content : String) : List String :=
  wsTokens content.data

/-- The term-emission loop at the bottom of `parse_html_content`: repeatedly
emit the maximal run of alphanumeric characters at `pos`
(`std::find_if_not`), then skip to the next alphanumeric character
(`std::find_if`).  `fuel` bounds the number of loop steps; the
fuel-exhausted case is unreachable from `alnumRuns`. -/
def alnumFuel : Nat → List Char → List String
  | _, [] => []
  | 0, _ :: _ => []
  | fuel + 1, c :: cs =>
    if cIsAlnum c then String.mk (c :: cs.takeWhile cIsAlnum)
                       :: alnumFuel fuel (cs.dropWhile cIsAlnum)
    else alnumFuel fuel cs

/-- The term-emission loop, started with enough fuel. -/
def alnumRuns (l : List Char) : List String := alnumFuel l.length l

mutual
/-- The header-dropping lambda inside `parse_html_content`, phase
`pos = std::find(pos, end, '\n')`: scan forward to the next newline.
When no newline remains the source computes `std::next(content.end())` and
the subsequent `find_if` walks past the buffer (undefined behavior); on
every run where that loop exits normally it exits with `pos == end` and the
lambda returns the empty view, which is what the model returns there. -/
def findNL : List Char → List Char
  | [] => []
  | c :: cs => if c = '\n' then afterNL cs else findNL cs

/-- The second phase of the header-dropping lambda:
`find_if(next(pos), end, c == '\n' or not isspace(c))`, then return the
suffix starting at the found character if it is a newline, else resume the
outer scan from it (that character is not a newline, so the next
`std::find` starts strictly after it). -/
def afterNL : List Char → List Char
  | [] => []
  | c :: cs =>
    if c = '\n' then '\n' :: cs
    else if cIsSpace c then afterNL cs
    else findNL cs
end

/-- `parse_html_content`, parameterized by the HTML cleaner
`parsing::html::cleantext` (the header `parsing/html.hpp` is not among the
modelled sources, so the cleaner stays an explicit function argument).
Note the order in the source: the blank-line header heuristic runs on the
*raw* content, and `cleantext` is applied to its result. -/
def parse_html_content (cleantext : String → String) (content : String) :
    List String :=
  alnumRuns (cleantext (String.mk (findNL content.data))).data

/-! ## The batch processor (`Forward_Index_Builder::run`) -/

/-- Lookup in the local term dictionary (`std::map<std::string, uint32_t>`;
only `find`, `size` and `operator[]`-insert are used, so an association
list in insertion order is an adequate model). -/
def assocFind : List (String × Nat) → String → Option Nat
  | [], _ => none
  | (k, v) :: rest, t => if k = t then some v else assocFind rest t

/-- The `process` closure of `run`, folded over the raw terms the splitter
emits for one document.  State: the local dictionary `map`, the lines of the
batch `.terms` file written so far, and the current document's `term_ids`.
Each raw term is first normalized by `process_term`; a hit reuses the mapped
id, a miss assigns `id = map.size()`, inserts, and appends the term to the
`.terms` file.  The id (hit or miss) is pushed onto `term_ids`. -/
def procTerms (process_term : String → String) :
    List (String × Nat) → List String → List Nat → List String →
    List (String × Nat) × List String × List Nat
  | map, tf, ids, [] => (map, tf, ids)
  | map, tf, ids, raw :: rest =>
    let term := process_term raw
    match assocFind map term with
    | some id => procTerms process_term map tf (ids ++ [id]) rest
    | none =>
      procTerms process_term (map ++ [(term, map.length)]) (tf ++ [term])
        (ids ++ [map.length]) rest

/-- The per-record loop of `run`: for each record append its `trecid`/`url`
lines (captured in `runBatch` below), process its content, and write the
document's `term_ids` as one length-prefixed record.  Returns the final
`.terms` lines and the per-document id sequences. -/
def runDocs (process_term : String → String)
    (process_content : String → List String) :
    List Document_Record → List (String × Nat) → List String →
    List String × List (List Nat)
  | [], _, tf => (tf, [])
  | r :: rs, map, tf =>
    let p := procTerms process_term map tf [] (process_content r.content)
    let q := runDocs process_term process_content rs p.1 p.2.1
    (q.1, p.2.2 :: q.2)

/-- The four files a batch worker produces, plus the batch's document count
(what `write_header(os, bp.records.size())` wrote). -/
structure BatchOutput where
  doc_count : Nat
  docs : List (List Nat)
  documents : List String
  urls : List String
  terms : List String
deriving Repr, DecidableEq

/-- The byte words of a batch binary index file: the header record
(`uint32 1` then `uint32 doc_count`, via `write_header`) followed by each
document as `uint32 length` then its term-ids (`write_document`). -/
def indexFile (count : Nat) (docs : List (List Nat)) : List Nat :=
  [1, count] ++ (docs.map (fun d => d.length :: d)).flatten

/-- `Forward_Index_Builder::run` on one `Batch_Process`. -/
def runBatch (process_term : String → String)
    (process_content : String → List String)
    (records : List Document_Record) : BatchOutput :=
  let q := runDocs process_term process_content records [] []
  ⟨records.length, q.2, records.map (·.trecid), records.map (·.url), q.1⟩

/-! ## The span-stack term merger (`Forward_Index_Builder::collect_terms`) -/

/-- The `Term_Span` record local to `collect_terms`. -/
structure Term_Span where
  first : Nat
  last : Nat
  lvl : Nat
deriving Repr, DecidableEq

/-- The sub-range `[a, b)` of the term vector. -/
def strSlice (l : List String) (a b : Nat) : List String :=
  (l.drop a).take (b - a)

/-- `std::inplace_merge` on two sorted adjacent ranges: the stable two-way
merge, taking from the right run exactly when its head is `<` the left
head.  `fuel` bounds the number of merge steps (one element is consumed per
step); the fuel-exhausted case is unreachable from `mergeStr`. -/
def mergeFuel : Nat → List String → List String → List String
  | _, [], ys => ys
  | _, x :: xs, [] => x :: xs
  | 0, x :: xs, _ :: ys => x :: xs ++ ys
  | fuel + 1, x :: xs, y :: ys =>
    if sLt y x then y :: mergeFuel fuel (x :: xs) ys
    else x :: mergeFuel fuel xs (y :: ys)

/-- The two-way merge, started with enough fuel. -/
def mergeStr (xs ys : List String) : List String :=
  mergeFuel (xs.length + ys.length) xs ys

/-- `std::unique`: remove consecutive duplicate elements, keeping the first
of each run.  `fuel` bounds the number of comparison steps; the
fuel-exhausted case is unreachable from `dedupAdj`. -/
def dedupFuel : Nat → List String → List String
  | _, [] => []
  | _, [x] => [x]
  | 0, x :: _ :: _ => [x]
  | fuel + 1, x :: y :: rest =>
    if x = y then dedupFuel fuel (x :: rest) else x :: dedupFuel fuel (y :: rest)

/-- `std::unique`, started with enough fuel. -/
def dedupAdj (l : List String) : List String := dedupFuel l.length l

/-- The `merge_spans` lambda of `collect_terms`: assert
`lhs.last == rhs.first` (`Expects`, modelled by `none`), in-place-merge the
two adjacent ranges, erase the consecutive duplicates (`unique`/`erase`,
which shifts the part of the vector behind `rhs.last` left), and return the
span `{lhs.first, terms.size(), lhs.lvl + 1}` over the new vector. -/
def merge_spans (terms : List String) (lhs rhs : Term_Span) :
    Option (List String × Term_Span) :=
  if lhs.last = rhs.first then
    let left := strSlice terms lhs.first lhs.last
    let right := strSlice terms lhs.last rhs.last
    let merged := dedupAdj (mergeStr left right)
    let terms2 := terms.take lhs.first ++ merged ++ terms.drop rhs.last
    some (terms2, ⟨lhs.first, terms2.length, lhs.lvl + 1⟩)
  else none

/-- The `push_span` lambda: while the stack's top has the level of the
incoming span, pop it and merge it in; then push.  The stack is a list with
its head as `top()`. -/
def push_span (terms : List String) (spans : List Term_Span) (s : Term_Span) :
    Option (List String × List Term_Span) :=
  match spans with
  | [] => some (terms, [s])
  | top :: rest =>
    if top.lvl = s.lvl then
      match merge_spans terms top s with
      | none => none
      | some (terms2, s2) => push_span terms2 rest s2
    else some (terms, s :: top :: rest)

/-- The per-batch loop of `collect_terms`: append the lines of the batch's
`.terms` file, sort the newly appended range (`std::sort`; modelled by the
sort of the appended segment — the sorted range is the same list), and push
it as a level-0 span. -/
def collect_loop :
    List (List String) → List String → List Term_Span →
    Option (List String × List Term_Span)
  | [], terms, spans => some (terms, spans)
  | b :: bs, terms, spans =>
    let terms2 := terms ++ List.insertionSort leP b
    match push_span terms2 spans ⟨terms.length, terms2.length, 0⟩ with
    | none => none
    | some (t, sp) => collect_loop bs t sp

/-- The final drain `while (spans.size() > 1)`: pop `rhs`, pop `lhs`,
merge, push the result.  `fuel` bounds the number of iterations. -/
def drainFuel : Nat → List String → List Term_Span →
    Option (List String × List Term_Span)
  | _, terms, [] => some (terms, [])
  | _, terms, [s] => some (terms, [s])
  | 0, terms, sp => some (terms, sp)
  | fuel + 1, terms, rhs :: lhs :: rest =>
    match merge_spans terms lhs rhs with
    | none => none
    | some (terms2, s2) => drainFuel fuel terms2 (s2 :: rest)

/-- The final drain, started with enough fuel (each step shortens the stack
by one, so the stack height suffices; the fuel-exhausted case is
unreachable from `drain`). -/
def drain (terms : List String) (spans : List Term_Span) :
    Option (List String × List Term_Span) :=
  drainFuel spans.length terms spans

/-- `Forward_Index_Builder::collect_terms`, over the per-batch `.terms`
files given as their lists of lines. -/
def collect_terms (batches : List (List String)) : Option (List String) :=
  match collect_loop batches [] [] with
  | none => none
  | some (terms, spans) =>
    match drain terms spans with
    | none => none
    | some (terms2, _) => some terms2

/-! ## The remapper and concatenator (`Forward_Index_Builder::merge`) -/

/-- `Forward_Index_Builder::reverse_mapping`: build the global dictionary by
`emplace`-ing each term of the global list with the running `Term_Id`.
`emplace` does not overwrite an existing key; the counter advances
regardless. -/
def rmGo : List String → Nat → List (String × Nat) → List (String × Nat)
  | [], _, acc => acc
  | t :: ts, n, acc =>
    rmGo ts (n + 1) (if (assocFind acc t).isSome then acc else acc ++ [(t, n)])

/-- `reverse_mapping(terms)`. -/
def reverse_mapping (terms : List String) : List (String × Nat) :=
  rmGo terms 0 []

/-- `term_mapping[bterm]`: `std::unordered_map::operator[]` returns the
mapped id, or value-initializes (`Term_Id{0}`) on a miss. -/
def rmLookup (m : List (String × Nat)) (t : String) : Nat :=
  (assocFind m t).getD 0

/-- The per-batch id translation of the remapping phase:
`mapping[j] = term_mapping[batch_terms[j]]`, applied to an old local id.
An old id at or beyond `batch_terms.size()` would read the `mapping` vector
out of bounds in the source (undefined behavior); the model looks up the
empty string there.  Ids written by `run` are always in bounds. -/
def remapFun (global bterms : List String) (old : Nat) : Nat :=
  rmLookup (reverse_mapping global) (bterms.getD old "")

/-- The document walk of the remapping phase, on the words after the header
record: each document is `uint32 length` followed by `length` term-ids, and
only the term-ids are rewritten.  (`writable_binary_collection` is declared
in `binary_collection.hpp`, which is not among the modelled sources.
Modelled from the spec: the batch index file is a header record followed by
`doc_count` length-prefixed documents, and the remapper skips the one-word
header and overwrites every term-id in every document with `R[old_id]`.) -/
def remapFuel (f : Nat → Nat) : Nat → List Nat → List Nat
  | _, [] => []
  | 0, w => w
  | fuel + 1, len :: rest =>
    len :: ((rest.take len).map f ++ remapFuel f fuel (rest.drop len))

/-- The document walk, started with enough fuel (each document consumes at
least its length word, so the word count suffices; the fuel-exhausted case
is unreachable from `remapWords`). -/
def remapWords (f : Nat → Nat) (words : List Nat) : List Nat :=
  remapFuel f words.length words

/-- The remapping phase on a whole batch index file:
`for (auto doc_iter = ++coll.begin(); ...)` skips the header record (the
first two words) and rewrites the documents behind it in place. -/
def remapFile (f : Nat → Nat) (words : List Nat) : List Nat :=
  words.take 2 ++ remapWords f (words.drop 2)

/-- Decode a sequence of length-prefixed documents (the reader's view of
the binary format; used to state what "document `k` of the index" is). -/
def decodeFuel : Nat → List Nat → List (List Nat)
  | _, [] => []
  | 0, _ :: _ => []
  | fuel + 1, len :: rest => rest.take len :: decodeFuel fuel (rest.drop len)

/-- The decoder, started with enough fuel (the fuel-exhausted case is
unreachable from `decodeDocs`). -/
def decodeDocs (words : List Nat) : List (List Nat) :=
  decodeFuel words.length words

/-- `Forward_Index_Builder::merge basename document_count batch_count`, over
the outputs of the `batch_count` batch workers: concatenate the `.documents`
and `.urls` files in batch order, collect the global term list and write it
to `.terms`, remap every batch index file through the global dictionary,
and concatenate the batch index files behind a fresh header, skipping 8
bytes (the two header words) of each. -/
def mergeFiles (document_count : Nat) (outs : List BatchOutput) :
    Option BatchOutput :=
  match collect_terms (outs.map (·.terms)) with
  | none => none
  | some ts =>
    some { doc_count := document_count
         , docs :=
             (outs.map (fun o =>
               decodeDocs ((remapFile (remapFun ts o.terms)
                 (indexFile o.doc_count o.docs)).drop 2))).flatten
         , documents := (outs.map (·.documents)).flatten
         , urls := (outs.map (·.urls)).flatten
         , terms := ts }

/-- The final output files of a build, as one record: `<basename>` as its
32-bit words, and the lines of `.documents`, `.urls` and `.terms`. -/
structure BuildOutput where
  index : List Nat
  documents : List String
  urls : List String
  terms : List String
deriving Repr, DecidableEq

/-! ## The ingestion driver (`Forward_Index_Builder::build`) -/

/-- `record_batch.size() == batch_size` compares `size_t` against
`ptrdiff_t`; the signed value is converted to `size_t` (two's complement,
64-bit). -/
def usize (b : Int) : Nat := (b % (2 ^ 64 : Int)).toNat

/-- The read loop of `build`: accumulate records; after each push, if the
batch reached `batch_size` dispatch it; at end of stream dispatch the final
(possibly empty) batch.  Returns the dispatched batches in batch-number
order. -/
def splitLoop (batch_size : Int) (acc : List Document_Record) :
    List Document_Record → List (List Document_Record)
  | [] => [acc]
  | r :: rs =>
    let acc2 := acc ++ [r]
    if acc2.length = usize batch_size then acc2 :: splitLoop batch_size [] rs
    else splitLoop batch_size acc2 rs

/-- The startup configuration check of `build`: it aborts exactly when
`threads < 2`; `batch_size` is not checked. -/
def configAborts (threads : Nat) : Bool := threads < 2

/-- `Forward_Index_Builder::build`: check the configuration, pull and batch
the records, run every batch, then merge.  `first_document` after the read
loop — the `document_count` passed to `merge` — is the sum of the
dispatched batch sizes. -/
def build (process_term : String → String)
    (process_content : String → List String) (batch_size : Int)
    (threads : Nat) (records : List Document_Record) : Option BuildOutput :=
  if configAborts threads then none
  else
    let batches := splitLoop batch_size [] records
    let outs := batches.map (runBatch process_term process_content)
    match mergeFiles ((batches.map List.length).sum) outs with
    | none => none
    | some m =>
      some { index := indexFile m.doc_count m.docs
           , documents := m.documents
           , urls := m.urls
           , terms := m.terms }

/-! ## Spec-side definitions

These definitions follow the specification's words, not the source; each is
used only to compare a claimed behavior against the source's behavior. -/

/-- Modelled from the spec: `parsing::html::cleantext` "strips
tags/entities" (the cleaner itself, `parsing/html.hpp`, is not among the
modelled sources).  A minimal tag stripper — drop every maximal `<`…`>`
region — is enough to compare the two orders of composition. -/
def stripTagsGo : Bool → List Char → List Char
  | _, [] => []
  | false, c :: cs =>
    if c = '<' then stripTagsGo true cs else c :: stripTagsGo false cs
  | true, c :: cs =>
    if c = '>' then stripTagsGo false cs else stripTagsGo true cs

/-- Modelled from the spec: a tag-stripping HTML cleaner on strings. -/
def cleanHtml (s : String) : String := String.mk (stripTagsGo false s.data)

/-- The claimed composition order for the HTML splitter, following the
spec's words: "first strip tags/entities via the HTML cleaner; then ...
drop everything up to and including the first blank line ...; then emit
maximal runs of ASCII alphanumeric characters".  (Which newline of the
blank-line pair survives the drop is immaterial to the emitted runs, so the
drop step is shared with the source model.) -/
def parse_html_content_claimed (cleantext : String → String)
    (content : String) : List String :=
  alnumRuns (String.mk (findNL (cleantext content).data)).data

/-- An accumulator-style scanner emitting the maximal alphanumeric runs of
a character list; used to characterize `alnumRuns` independently of its
`takeWhile`/`dropWhile` loop. -/
def runsSpec (cur : List Char) : List Char → List String
  | [] => if cur.isEmpty then [] else [String.mk cur.reverse]
  | c :: cs =>
    if cIsAlnum c then runsSpec (c :: cur) cs
    else if cur.isEmpty then runsSpec [] cs
    else String.mk cur.reverse :: runsSpec [] cs

/-- The position of the first occurrence of a term in a term list (the
number of earlier lines); equals the list's length when absent. -/
def firstIdx : List String → String → Nat
  | [], _ => 0
  | t :: ts, x => if t = x then 0 else firstIdx ts x + 1

/-- The pairing of a term list with consecutive indices starting at `n`;
`idxPairs tf 0` is the association-list contents of a dictionary built by
inserting the lines of `tf` in order. -/
def idxPairs : List String → Nat → List (String × Nat)
  | [], _ => []
  | t :: ts, n => (t, n) :: idxPairs ts (n + 1)

/-- All normalized terms of a record stream, in emission order (with
duplicates): what Split+Normalize produces over every record. -/
def allRaw (process_term : String → String)
    (process_content : String → List String)
    (records : List Document_Record) : List String :=
  (records.map (fun r => (process_content r.content).map process_term)).flatten

/-- The deduplicated sort of all normalized terms of a record stream: the
batching-independent description of the global term list. -/
def globalTerms (process_term : String → String)
    (process_content : String → List String)
    (records : List Document_Record) : List String :=
  dedupAdj (List.insertionSort leP
    (allRaw process_term process_content records))

/-- The batching-independent description of a build's outputs: the global
term list is the deduplicated sort of all normalized terms, document `k` is
record `k`'s normalized terms translated to positions in that list, and the
sidecar files are the records' `trecid`s and `url`s in order. -/
def canonicalOut (process_term : String → String)
    (process_content : String → List String)
    (records : List Document_Record) : BuildOutput :=
  { index := indexFile records.length
      (records.map (fun r =>
        (process_content r.content).map (fun w =>
          firstIdx (globalTerms process_term process_content records)
            (process_term w))))
  , documents := records.map (·.trecid)
  , urls := records.map (·.url)
  , terms := globalTerms process_term process_content records }

/-- The invariant of the merger's span stack, parameterized by a property
`P` of each span's slice of the term vector: read top-down, the spans tile
`[0, e)` of the term vector contiguously (top span ending at `e`, bottom
span starting at 0), each span is within bounds, and each span's slice
satisfies `P`. -/
def spansOK (P : List String → Prop) (terms : List String) :
    Nat → List Term_Span → Prop
  | e, [] => e = 0
  | e, s :: rest =>
    s.last = e ∧ s.first ≤ s.last ∧ s.last ≤ terms.length ∧
      P (strSlice terms s.first s.last) ∧ spansOK P terms s.first rest

/-! # Theorems

## The string order is a linear order -/

theorem charsLt_cons {x y : Char} {xs ys : List Char} :
    charsLt (x :: xs) (y :: ys) = true ↔
      x < y ∨ (x = y ∧ charsLt xs ys = true) := by
  by_cases h1 : x < y
  · simp [charsLt, h1]
  by_cases h2 : y < x
  · have hne : ¬(x = y ∧ charsLt xs ys = true) := by
      rintro ⟨rfl, -⟩; exact lt_irrefl _ h2
    simp [charsLt, h1, h2, hne]
  · have hxy : x = y := le_antisymm (not_lt.mp h2) (not_lt.mp h1)
    simp [charsLt, h1, h2, hxy]

theorem charsLt_irrefl (l : List Char) : charsLt l l = false := by
  induction l with
  | nil => rfl
  | cons a as ih =>
    rw [Bool.eq_false_iff]
    intro h
    rcases charsLt_cons.mp h with h | ⟨-, h⟩
    · exact lt_irrefl _ h
    · rw [ih] at h; exact Bool.false_ne_true h

theorem charsLt_trans {a b c : List Char} (hab : charsLt a b = true)
    (hbc : charsLt b c = true) : charsLt a c = true := by
  induction a generalizing b c with
  | nil =>
    cases c with
    | nil => cases b <;> simp [charsLt] at hab hbc
    | cons z zs => rfl
  | cons x xs ih =>
    cases b with
    | nil => simp [charsLt] at hab
    | cons y ys =>
      cases c with
      | nil => simp [charsLt] at hbc
      | cons z zs =>
        rcases charsLt_cons.mp hab with h1 | ⟨rfl, h1⟩ <;>
          rcases charsLt_cons.mp hbc with h2 | ⟨rfl, h2⟩
        · exact charsLt_cons.mpr (Or.inl (lt_trans h1 h2))
        · exact charsLt_cons.mpr (Or.inl h1)
        · exact charsLt_cons.mpr (Or.inl h2)
        · exact charsLt_cons.mpr (Or.inr ⟨rfl, ih h1 h2⟩)

theorem charsLt_conn {a b : List Char} (hab : charsLt a b = false)
    (hba : charsLt b a = false) : a = b := by
  induction a generalizing b with
  | nil => cases b with
    | nil => rfl
    | cons y ys => simp [charsLt] at hab
  | cons x xs ih =>
    cases b with
    | nil => simp [charsLt] at hba
    | cons y ys =>
      rw [Bool.eq_false_iff] at hab hba
      have hxy : ¬x < y := fun h => hab (charsLt_cons.mpr (Or.inl h))
      have hyx : ¬y < x := fun h => hba (charsLt_cons.mpr (Or.inl h))
      have hx : x = y := le_antisymm (not_lt.mp hyx) (not_lt.mp hxy)
      subst hx
      have h1 : charsLt xs ys = false := by
        rw [Bool.eq_false_iff]
        exact fun h => hab (charsLt_cons.mpr (Or.inr ⟨rfl, h⟩))
      have h2 : charsLt ys xs = false := by
        rw [Bool.eq_false_iff]
        exact fun h => hba (charsLt_cons.mpr (Or.inr ⟨rfl, h⟩))
      rw [ih h1 h2]

theorem sLt_irrefl (a : String) : sLt a a = false := charsLt_irrefl _

theorem ltP_trans {a b c : String} (h1 : ltP a b) (h2 : ltP b c) : ltP a c :=
  charsLt_trans h1 h2

theorem sLt_asymm {a b : String} (h : sLt a b = true) : sLt b a = false := by
  rw [Bool.eq_false_iff]
  intro h2
  have := charsLt_trans (a := a.data) h h2
  rw [charsLt_irrefl] at this
  exact Bool.false_ne_true this

theorem eq_of_not_sLt {a b : String} (hab : sLt a b = false)
    (hba : sLt b a = false) : a = b := by
  cases a; cases b
  exact congrArg String.mk (charsLt_conn hab hba)

theorem trichotomy (a b : String) : ltP a b ∨ ltP b a ∨ a = b := by
  cases h1 : sLt a b
  · cases h2 : sLt b a
    · exact Or.inr (Or.inr (eq_of_not_sLt h1 h2))
    · exact Or.inr (Or.inl h2)
  · exact Or.inl h1

theorem leP_iff {a b : String} : leP a b ↔ ¬ltP b a := by
  unfold leP ltP sLe
  cases sLt b a <;> simp

theorem leP_refl (a : String) : leP a a := by
  rw [leP_iff]; unfold ltP; rw [sLt_irrefl]; exact Bool.false_ne_true

theorem leP_of_ltP {a b : String} (h : ltP a b) : leP a b := by
  rw [leP_iff]; unfold ltP; rw [sLt_asymm h]; exact Bool.false_ne_true

theorem leP_total (a b : String) : leP a b ∨ leP b a := by
  rcases trichotomy a b with h | h | rfl
  · exact Or.inl (leP_of_ltP h)
  · exact Or.inr (leP_of_ltP h)
  · exact Or.inl (leP_refl a)

theorem ltP_of_ltP_of_leP {a b c : String} (h1 : ltP a b) (h2 : leP b c) :
    ltP a c := by
  rcases trichotomy b c with h | h | rfl
  · exact ltP_trans h1 h
  · exact absurd h (leP_iff.mp h2)
  · exact h1

theorem ltP_of_leP_of_ltP {a b c : String} (h1 : leP a b) (h2 : ltP b c) :
    ltP a c := by
  rcases trichotomy a b with h | h | rfl
  · exact ltP_trans h h2
  · exact absurd h (leP_iff.mp h1)
  · exact h2

theorem leP_trans {a b c : String} (h1 : leP a b) (h2 : leP b c) : leP a c := by
  rcases trichotomy a b with h | h | rfl
  · exact leP_of_ltP (ltP_of_ltP_of_leP h h2)
  · exact absurd h (leP_iff.mp h1)
  · exact h2

theorem ltP_of_leP_of_ne {a b : String} (h1 : leP a b) (h2 : a ≠ b) :
    ltP a b := by
  rcases trichotomy a b with h | h | rfl
  · exact h
  · exact absurd h (leP_iff.mp h1)
  · exact absurd rfl h2

theorem ltP_ne {a b : String} (h : ltP a b) : a ≠ b := by
  rintro rfl
  unfold ltP at h
  rw [sLt_irrefl] at h
  exact Bool.false_ne_true h

/-! ## Merge and dedup -/

theorem mem_mergeFuel {a : String} :
    ∀ {n : Nat} {xs ys : List String}, xs.length + ys.length ≤ n →
      (a ∈ mergeFuel n xs ys ↔ a ∈ xs ∨ a ∈ ys) := by
  intro n
  induction n with
  | zero =>
    intro xs ys h
    cases xs with
    | nil => simp [mergeFuel]
    | cons x xs => simp at h
  | succ n ih =>
    intro xs ys h
    cases xs with
    | nil => simp [mergeFuel]
    | cons x xs =>
      cases ys with
      | nil => simp [mergeFuel]
      | cons y ys =>
        have hb1 : (x :: xs).length + ys.length ≤ n := by
          simp only [List.length_cons] at h ⊢
          omega
        have hb2 : xs.length + (y :: ys).length ≤ n := by
          simp only [List.length_cons] at h ⊢
          omega
        rw [mergeFuel]
        by_cases hc : sLt y x = true
        · rw [if_pos hc]
          simp only [List.mem_cons, ih hb1]
          tauto
        · rw [if_neg hc]
          simp only [List.mem_cons, ih hb2]
          tauto

theorem mem_mergeStr {a : String} {xs ys : List String} :
    a ∈ mergeStr xs ys ↔ a ∈ xs ∨ a ∈ ys :=
  mem_mergeFuel (le_refl _)

theorem sortedLe_mergeFuel :
    ∀ {n : Nat} {xs ys : List String}, xs.length + ys.length ≤ n →
      SortedLe xs → SortedLe ys → SortedLe (mergeFuel n xs ys) := by
  intro n
  induction n with
  | zero =>
    intro xs ys h hx hy
    cases xs with
    | nil => simpa [mergeFuel] using hy
    | cons x xs => simp at h
  | succ n ih =>
    intro xs ys h hx hy
    cases xs with
    | nil => simpa [mergeFuel] using hy
    | cons x xs =>
      cases ys with
      | nil => simpa [mergeFuel] using hx
      | cons y ys =>
        have hb1 : (x :: xs).length + ys.length ≤ n := by
          simp only [List.length_cons] at h ⊢
          omega
        have hb2 : xs.length + (y :: ys).length ≤ n := by
          simp only [List.length_cons] at h ⊢
          omega
        rw [mergeFuel]
        by_cases hc : sLt y x = true
        · rw [if_pos hc]
          rw [SortedLe, List.pairwise_cons]
          have hy2 := (List.pairwise_cons.mp hy).2
          refine ⟨?_, ih hb1 hx hy2⟩
          intro z hz
          rcases (mem_mergeFuel hb1).mp hz with hz | hz
          · rcases List.mem_cons.mp hz with rfl | hz
            · exact leP_of_ltP hc
            · exact leP_trans (leP_of_ltP hc)
                ((List.pairwise_cons.mp hx).1 z hz)
          · exact (List.pairwise_cons.mp hy).1 z hz
        · rw [if_neg hc]
          rw [SortedLe, List.pairwise_cons]
          have hxy : leP x y := by
            rw [leP_iff]
            exact fun hl => hc hl
          have hx2 := (List.pairwise_cons.mp hx).2
          refine ⟨?_, ih hb2 hx2 hy⟩
          intro z hz
          rcases (mem_mergeFuel hb2).mp hz with hz | hz
          · exact (List.pairwise_cons.mp hx).1 z hz
          · rcases List.mem_cons.mp hz with rfl | hz
            · exact hxy
            · exact leP_trans hxy ((List.pairwise_cons.mp hy).1 z hz)

theorem sortedLe_mergeStr {xs ys : List String} (hx : SortedLe xs)
    (hy : SortedLe ys) : SortedLe (mergeStr xs ys) :=
  sortedLe_mergeFuel (le_refl _) hx hy

theorem mem_dedupFuel {a : String} :
    ∀ {n : Nat} {l : List String}, l.length ≤ n →
      (a ∈ dedupFuel n l ↔ a ∈ l) := by
  intro n
  induction n with
  | zero =>
    intro l h
    cases l with
    | nil => simp [dedupFuel]
    | cons x rest => simp at h
  | succ n ih =>
    intro l h
    match l with
    | [] => simp [dedupFuel]
    | [x] => simp [dedupFuel]
    | x :: y :: rest =>
      have hb : (x :: rest).length ≤ n := by
        simp only [List.length_cons] at h ⊢
        omega
      have hb2 : (y :: rest).length ≤ n := by
        simp only [List.length_cons] at h ⊢
        omega
      rw [dedupFuel]
      by_cases hc : x = y
      · subst hc
        rw [if_pos rfl, ih hb]
        simp only [List.mem_cons]
        tauto
      · rw [if_neg hc]
        simp only [List.mem_cons, ih hb2]

theorem mem_dedupAdj {a : String} {l : List String} :
    a ∈ dedupAdj l ↔ a ∈ l :=
  mem_dedupFuel (le_refl _)

theorem sortedLt_dedupFuel :
    ∀ {n : Nat} {l : List String}, l.length ≤ n →
      SortedLe l → SortedLt (dedupFuel n l) := by
  intro n
  induction n with
  | zero =>
    intro l h _
    cases l with
    | nil => exact List.Pairwise.nil
    | cons x rest => simp at h
  | succ n ih =>
    intro l h hs
    match l with
    | [] => exact List.Pairwise.nil
    | [x] => exact List.pairwise_singleton _ _
    | x :: y :: rest =>
      have hb : (x :: rest).length ≤ n := by
        simp only [List.length_cons] at h ⊢
        omega
      have hb2 : (y :: rest).length ≤ n := by
        simp only [List.length_cons] at h ⊢
        omega
      rw [dedupFuel]
      by_cases hc : x = y
      · subst hc
        rw [if_pos rfl]
        refine ih hb (hs.sublist ?_)
        refine List.cons_sublist_cons.mpr ?_
        exact List.sublist_cons_self _ _
      · rw [if_neg hc]
        rw [SortedLt, List.pairwise_cons]
        have hs1 := (List.pairwise_cons.mp hs).1
        have hs2 := (List.pairwise_cons.mp hs).2
        refine ⟨?_, ih hb2 hs2⟩
        intro z hz
        have hxy : ltP x y := ltP_of_leP_of_ne (hs1 y (List.mem_cons_self _ _)) hc
        rcases List.mem_cons.mp ((mem_dedupFuel hb2).mp hz) with rfl | hz
        · exact hxy
        · exact ltP_of_ltP_of_leP hxy ((List.pairwise_cons.mp hs2).1 z hz)

theorem sortedLt_dedupAdj {l : List String} (h : SortedLe l) :
    SortedLt (dedupAdj l) :=
  sortedLt_dedupFuel (le_refl _) h

/-! ## The sort of a batch -/

theorem sortedLe_sort (l : List String) : SortedLe (List.insertionSort leP l) := by
  haveI h1 : IsTotal String leP := ⟨leP_total⟩
  haveI h2 : IsTrans String leP := ⟨fun _ _ _ => leP_trans⟩
  exact List.sorted_insertionSort leP l

theorem mem_sort {a : String} {l : List String} :
    a ∈ List.insertionSort leP l ↔ a ∈ l :=
  (List.perm_insertionSort leP l).mem_iff

theorem nodup_sort {l : List String} (h : l.Nodup) :
    (List.insertionSort leP l).Nodup :=
  (List.perm_insertionSort leP l).nodup_iff.mpr h

theorem sortedLt_sort {l : List String} (h : l.Nodup) :
    SortedLt (List.insertionSort leP l) := by
  have hs := sortedLe_sort l
  have hn := nodup_sort h
  rw [SortedLt]
  rw [SortedLe] at hs
  rw [List.Nodup] at hn
  have := List.Pairwise.and hs hn
  exact this.imp (fun {a b} hab => ltP_of_leP_of_ne hab.1 hab.2)

/-! ## Slices -/

theorem strSlice_eq (l : List String) (a b : Nat) :
    strSlice l a b = (l.take b).drop a := by
  rw [strSlice, List.drop_take]

theorem strSlice_all (l : List String) : strSlice l 0 l.length = l := by
  simp [strSlice]

theorem strSlice_of_take_eq {l l2 : List String} {n a b : Nat}
    (h : l2.take n = l.take n) (hb : b ≤ n) :
    strSlice l2 a b = strSlice l a b := by
  rw [strSlice_eq, strSlice_eq]
  have h2 : l2.take b = l.take b := by
    have e1 : l2.take b = (l2.take n).take b := by
      rw [List.take_take, Nat.min_eq_left hb]
    have e2 : l.take b = (l.take n).take b := by
      rw [List.take_take, Nat.min_eq_left hb]
    rw [e1, e2, h]
  rw [h2]

theorem strSlice_append_sorted (terms Δ : List String) :
    strSlice (terms ++ Δ) terms.length (terms.length + Δ.length) = Δ := by
  rw [strSlice]
  rw [List.drop_left]
  simp

theorem strSlice_left_append (pre merged rest : List String) :
    strSlice (pre ++ merged ++ rest) pre.length (pre.length + merged.length)
      = merged := by
  rw [strSlice, List.append_assoc, List.drop_left]
  rw [Nat.add_sub_cancel_left]
  rw [List.take_left]

/-! ## The span-stack invariant -/

theorem spansOK_congr {P : List String → Prop} {terms terms2 : List String}
    {n : Nat} (h : terms2.take n = terms.take n) (hn : n ≤ terms2.length) :
    ∀ {spans : List Term_Span} {e : Nat}, e ≤ n →
      spansOK P terms e spans → spansOK P terms2 e spans := by
  intro spans
  induction spans with
  | nil => intro e _ he; exact he
  | cons s rest ih =>
    intro e hen hs
    obtain ⟨h1, h2, h3, h4, h5⟩ := hs
    refine ⟨h1, h2, ?_, ?_, ?_⟩
    · exact le_trans (le_trans (le_of_eq h1) hen) hn
    · rw [strSlice_of_take_eq h (le_trans (le_of_eq h1) hen)]
      exact h4
    · exact ih (le_trans h2 (le_trans (le_of_eq h1) hen)) h5

theorem take_slice_slice {l : List String} {a b : Nat} (hab : a ≤ b)
    (hb : b ≤ l.length) :
    l.take a ++ strSlice l a b ++ strSlice l b l.length = l := by
  have e1 : strSlice l a b = (l.take b).drop a := strSlice_eq l a b
  have e2 : strSlice l b l.length = l.drop b := by
    rw [strSlice]
    exact List.take_of_length_le (by simp)
  have e3 : l.take a = (l.take b).take a := by
    rw [List.take_take, Nat.min_eq_left hab]
  rw [e1, e2, e3, List.take_append_drop, List.take_append_drop]

theorem merge_spans_step {P : List String → Prop}
    (hP : ∀ l r, P l → P r → P (dedupAdj (mergeStr l r)))
    {terms : List String} {s top : Term_Span} {rest : List Term_Span}
    (h : spansOK P terms terms.length (s :: top :: rest)) :
    ∃ terms2 s2, merge_spans terms top s = some (terms2, s2) ∧
      spansOK P terms2 terms2.length (s2 :: rest) ∧
      (∀ x, x ∈ terms2 ↔ x ∈ terms) := by
  simp only [spansOK] at h
  obtain ⟨hs1, hs2, hs3, hs4, ht1, ht2, ht3, ht4, ht5⟩ := h
  have hadj : top.last = s.first := ht1
  have hfl : top.first ≤ terms.length :=
    le_trans ht2 (le_trans (le_of_eq ht1) (le_trans hs2 hs3))
  have hright : P (strSlice terms top.last s.last) := by
    rw [hadj]; exact hs4
  have hdrop : terms.drop s.last = [] := by
    rw [hs1]; exact List.drop_length _
  have htakelen : (terms.take top.first).length = top.first :=
    List.length_take_of_le hfl
  set merged := dedupAdj (mergeStr (strSlice terms top.first top.last)
    (strSlice terms top.last s.last)) with hmerged
  have hT2 : terms.take top.first ++ merged ++ terms.drop s.last =
      terms.take top.first ++ merged := by
    rw [hdrop, List.append_nil]
  have hPm : P merged := hP _ _ ht4 hright
  have hsplit : terms.take top.first ++ strSlice terms top.first top.last ++
      strSlice terms top.last terms.length = terms :=
    take_slice_slice ht2 ht3
  have hmem : ∀ x, x ∈ terms.take top.first ++ merged ↔ x ∈ terms := by
    intro x
    conv_rhs => rw [← hsplit]
    have hrr : strSlice terms top.last s.last =
        strSlice terms top.last terms.length := by rw [hs1]
    simp only [List.mem_append, hmerged, mem_dedupAdj, mem_mergeStr, hrr]
    tauto
  have hlen2 : (terms.take top.first ++ merged).length =
      top.first + merged.length := by
    rw [List.length_append, htakelen]
  refine ⟨terms.take top.first ++ merged,
    ⟨top.first, (terms.take top.first ++ merged).length, top.lvl + 1⟩,
    ?_, ?_, hmem⟩
  · simp only [merge_spans, if_pos hadj]
    rw [hT2]
  · simp only [spansOK]
    refine ⟨by trivial, ?_, by trivial, ?_, ?_⟩
    · rw [hlen2]; exact Nat.le_add_right _ _
    · have hsl : strSlice (terms.take top.first ++ merged) top.first
          (terms.take top.first ++ merged).length = merged := by
        rw [hlen2]
        have h0 := strSlice_left_append (terms.take top.first) merged []
        rw [List.append_nil, htakelen] at h0
        exact h0
      rw [hsl]; exact hPm
    · have htk : (terms.take top.first ++ merged).take top.first =
          terms.take top.first := by
        have h0 := List.take_left (terms.take top.first) merged
        rw [htakelen] at h0
        exact h0
      refine spansOK_congr ?_ ?_ (le_refl top.first) ht5
      · exact htk
      · rw [hlen2]; exact Nat.le_add_right _ _

theorem push_span_ok {P : List String → Prop}
    (hP : ∀ l r, P l → P r → P (dedupAdj (mergeStr l r))) :
    ∀ {spans : List Term_Span} {terms : List String} {s : Term_Span},
      spansOK P terms terms.length (s :: spans) →
      ∃ terms2 spans2, push_span terms spans s = some (terms2, spans2) ∧
        spansOK P terms2 terms2.length spans2 ∧
        (∀ x, x ∈ terms2 ↔ x ∈ terms) := by
  intro spans
  induction spans with
  | nil =>
    intro terms s h
    exact ⟨terms, [s], rfl, h, fun x => Iff.rfl⟩
  | cons top rest ih =>
    intro terms s h
    rw [push_span]
    by_cases hlvl : top.lvl = s.lvl
    · rw [if_pos hlvl]
      obtain ⟨terms2, s2, hmerge, hok, hmem⟩ := merge_spans_step hP h
      rw [hmerge]
      obtain ⟨terms3, spans3, hpush, hok3, hmem3⟩ := ih hok
      exact ⟨terms3, spans3, hpush, hok3,
        fun x => (hmem3 x).trans (hmem x)⟩
    · rw [if_neg hlvl]
      exact ⟨terms, s :: top :: rest, rfl, h, fun x => Iff.rfl⟩

theorem collect_loop_ok {P : List String → Prop}
    (hP : ∀ l r, P l → P r → P (dedupAdj (mergeStr l r))) :
    ∀ {bs : List (List String)} {terms : List String}
      {spans : List Term_Span},
      (∀ b ∈ bs, P (List.insertionSort leP b)) →
      spansOK P terms terms.length spans →
      ∃ t2 sp2, collect_loop bs terms spans = some (t2, sp2) ∧
        spansOK P t2 t2.length sp2 ∧
        (∀ x, x ∈ t2 ↔ x ∈ terms ∨ ∃ b ∈ bs, x ∈ b) := by
  intro bs
  induction bs with
  | nil =>
    intro terms spans _ h
    refine ⟨terms, spans, rfl, h, fun x => ?_⟩
    simp
  | cons b bs ih =>
    intro terms spans hsort h
    rw [collect_loop]
    have hb : P (List.insertionSort leP b) :=
      hsort b (List.mem_cons_self _ _)
    set sb := List.insertionSort leP b with hsb
    have hlen : (terms ++ sb).length = terms.length + sb.length :=
      List.length_append _ _
    have hnew : spansOK P (terms ++ sb) (terms ++ sb).length
        (⟨terms.length, (terms ++ sb).length, 0⟩ :: spans) := by
      simp only [spansOK]
      refine ⟨by trivial, ?_, by trivial, ?_, ?_⟩
      · rw [hlen]; exact Nat.le_add_right _ _
      · have h0 := strSlice_append_sorted terms sb
        rw [← hlen] at h0
        rw [h0]; exact hb
      · refine spansOK_congr ?_ ?_ (le_refl terms.length) h
        · rw [List.take_left, List.take_length]
        · rw [hlen]; exact Nat.le_add_right _ _
    obtain ⟨t1, sp1, hpush, hok1, hmem1⟩ := push_span_ok hP hnew
    rw [hpush]
    obtain ⟨t2, sp2, hloop, hok2, hmem2⟩ :=
      ih (fun b2 hb2 => hsort b2 (List.mem_cons_of_mem _ hb2)) hok1
    refine ⟨t2, sp2, hloop, hok2, fun x => ?_⟩
    rw [hmem2 x]
    have : x ∈ t1 ↔ x ∈ terms ∨ x ∈ b := by
      rw [hmem1 x]
      simp only [List.mem_append, hsb, mem_sort]
    rw [this]
    simp only [List.mem_cons]
    constructor
    · rintro ((h | h) | ⟨b2, hb2, hx⟩)
      · exact Or.inl h
      · exact Or.inr ⟨b, Or.inl rfl, h⟩
      · exact Or.inr ⟨b2, Or.inr hb2, hx⟩
    · rintro (h | ⟨b2, (rfl | hb2), hx⟩)
      · exact Or.inl (Or.inl h)
      · exact Or.inl (Or.inr hx)
      · exact Or.inr ⟨b2, hb2, hx⟩

theorem drainFuel_ok {P : List String → Prop}
    (hP : ∀ l r, P l → P r → P (dedupAdj (mergeStr l r))) :
    ∀ {n : Nat} {terms : List String} {spans : List Term_Span},
      spans.length ≤ n + 1 →
      spansOK P terms terms.length spans →
      ∃ t2 sp2, drainFuel n terms spans = some (t2, sp2) ∧
        spansOK P t2 t2.length sp2 ∧ sp2.length ≤ 1 ∧
        (∀ x, x ∈ t2 ↔ x ∈ terms) := by
  intro n
  induction n with
  | zero =>
    intro terms spans hn h
    match spans, hn with
    | [], _ => exact ⟨terms, [], rfl, h, by simp, fun x => Iff.rfl⟩
    | [s], _ => exact ⟨terms, [s], rfl, h, by simp, fun x => Iff.rfl⟩
    | rhs :: lhs :: rest, hn => simp at hn
  | succ n ih =>
    intro terms spans hn h
    match spans, hn with
    | [], _ => exact ⟨terms, [], rfl, h, by simp, fun x => Iff.rfl⟩
    | [s], _ => exact ⟨terms, [s], rfl, h, by simp, fun x => Iff.rfl⟩
    | rhs :: lhs :: rest, hn =>
      obtain ⟨terms2, s2, hmerge, hok, hmem⟩ := merge_spans_step hP h
      have hn2 : (s2 :: rest).length ≤ n + 1 := by
        simp only [List.length_cons] at hn ⊢
        omega
      obtain ⟨t2, sp2, hdrain, hok2, hle, hmem2⟩ := ih hn2 hok
      refine ⟨t2, sp2, ?_, hok2, hle,
        fun x => (hmem2 x).trans (hmem x)⟩
      rw [drainFuel, hmerge]
      exact hdrain

theorem drain_ok {P : List String → Prop}
    (hP : ∀ l r, P l → P r → P (dedupAdj (mergeStr l r)))
    {terms : List String} {spans : List Term_Span}
    (h : spansOK P terms terms.length spans) :
    ∃ t2 sp2, drain terms spans = some (t2, sp2) ∧
      spansOK P t2 t2.length sp2 ∧ sp2.length ≤ 1 ∧
      (∀ x, x ∈ t2 ↔ x ∈ terms) :=
  drainFuel_ok hP (Nat.le_succ _) h

theorem collect_terms_ok {P : List String → Prop}
    (hP : ∀ l r, P l → P r → P (dedupAdj (mergeStr l r)))
    {batches : List (List String)}
    (hsort : ∀ b ∈ batches, P (List.insertionSort leP b)) :
    ∃ ts, collect_terms batches = some ts ∧ (ts = [] ∨ P ts) ∧
      (∀ x, x ∈ ts ↔ ∃ b ∈ batches, x ∈ b) := by
  have h0 : spansOK P ([] : List String) ([] : List String).length [] := by
    simp only [spansOK, List.length_nil]
  obtain ⟨t1, sp1, hloop, hok1, hmem1⟩ := collect_loop_ok hP hsort h0
  obtain ⟨t2, sp2, hdrain, hok2, hle, hmem2⟩ := drain_ok hP hok1
  have hct : collect_terms batches = some t2 := by
    rw [collect_terms, hloop]
    simp only [hdrain]
  refine ⟨t2, hct, ?_, fun x => ?_⟩
  · match sp2, hle with
    | [], _ =>
      simp only [spansOK] at hok2
      exact Or.inl (List.eq_nil_of_length_eq_zero hok2)
    | [sp], _ =>
      simp only [spansOK] at hok2
      obtain ⟨h1, h2, h3, h4, h5⟩ := hok2
      rw [h5] at h4
      rw [h1] at h4
      rw [strSlice_all] at h4
      exact Or.inr h4
  · rw [hmem2 x, hmem1 x]
    simp

theorem ltP_merge_closed :
    ∀ l r, SortedLt l → SortedLt r → SortedLt (dedupAdj (mergeStr l r)) := by
  intro l r hl hr
  refine sortedLt_dedupAdj (sortedLe_mergeStr ?_ ?_)
  · exact List.Pairwise.imp (fun h => leP_of_ltP h) hl
  · exact List.Pairwise.imp (fun h => leP_of_ltP h) hr

/-- `collect_terms` never trips the `Expects` assertion: on any input it
returns a result. -/
theorem collect_terms_total (batches : List (List String)) :
    ∃ ts, collect_terms batches = some ts := by
  obtain ⟨ts, hct, -, -⟩ :=
    collect_terms_ok (P := fun _ => True) (fun _ _ _ _ => trivial)
      (fun _ _ => trivial)
  exact ⟨ts, hct⟩

/-- `collect_terms` on duplicate-free batch term files: the result is
strictly sorted and holds exactly the terms of the batches. -/
theorem collect_terms_sorted {batches : List (List String)}
    (h : ∀ b ∈ batches, b.Nodup) :
    ∃ ts, collect_terms batches = some ts ∧ SortedLt ts ∧
      (∀ x, x ∈ ts ↔ ∃ b ∈ batches, x ∈ b) := by
  obtain ⟨ts, hct, hsP, hmem⟩ :=
    collect_terms_ok ltP_merge_closed
      (fun b hb => sortedLt_sort (h b hb))
  refine ⟨ts, hct, ?_, hmem⟩
  rcases hsP with rfl | hs
  · exact List.Pairwise.nil
  · exact hs

/-- Two strictly sorted lists with the same members are equal. -/
theorem sortedLt_unique :
    ∀ {l1 l2 : List String}, SortedLt l1 → SortedLt l2 →
      (∀ x, x ∈ l1 ↔ x ∈ l2) → l1 = l2 := by
  intro l1
  induction l1 with
  | nil =>
    intro l2 _ _ hm
    cases l2 with
    | nil => rfl
    | cons b t2 =>
      have := (hm b).mpr (List.mem_cons_self _ _)
      simp at this
  | cons a t1 ih =>
    intro l2 h1 h2 hm
    cases l2 with
    | nil =>
      have := (hm a).mp (List.mem_cons_self _ _)
      simp at this
    | cons b t2 =>
      have hab : a = b := by
        rcases List.mem_cons.mp ((hm a).mp (List.mem_cons_self _ _)) with
          h | ha2
        · exact h
        rcases List.mem_cons.mp ((hm b).mpr (List.mem_cons_self _ _)) with
          h | hb1
        · exact h.symm
        have hba : ltP b a := (List.pairwise_cons.mp h2).1 a ha2
        have hab2 : ltP a b := (List.pairwise_cons.mp h1).1 b hb1
        exact absurd rfl (ltP_ne (ltP_trans hab2 hba))
      subst hab
      have htail : ∀ x, x ∈ t1 ↔ x ∈ t2 := by
        intro x
        constructor
        · intro hx
          have hax : ltP a x := (List.pairwise_cons.mp h1).1 x hx
          rcases List.mem_cons.mp ((hm x).mp (List.mem_cons_of_mem _ hx))
            with rfl | h
          · exact absurd rfl (ltP_ne hax)
          · exact h
        · intro hx
          have hax : ltP a x := (List.pairwise_cons.mp h2).1 x hx
          rcases List.mem_cons.mp ((hm x).mpr (List.mem_cons_of_mem _ hx))
            with rfl | h
          · exact absurd rfl (ltP_ne hax)
          · exact h
      rw [ih (List.pairwise_cons.mp h1).2 (List.pairwise_cons.mp h2).2 htail]

/-! ## The batch processor: local ids are first-occurrence positions -/

theorem idxPairs_length (l : List String) (n : Nat) :
    (idxPairs l n).length = l.length := by
  induction l generalizing n with
  | nil => rfl
  | cons t ts ih => simp [idxPairs, ih]

theorem idxPairs_append (l1 l2 : List String) (n : Nat) :
    idxPairs (l1 ++ l2) n = idxPairs l1 n ++ idxPairs l2 (n + l1.length) := by
  induction l1 generalizing n with
  | nil => simp [idxPairs]
  | cons t ts ih =>
    show (t, n) :: idxPairs (ts ++ l2) (n + 1) =
      (t, n) :: (idxPairs ts (n + 1) ++ idxPairs l2 (n + (ts.length + 1)))
    rw [ih]
    have he : n + 1 + ts.length = n + (ts.length + 1) := by omega
    rw [he]

theorem assocFind_idxPairs (l : List String) (n : Nat) (t : String) :
    assocFind (idxPairs l n) t =
      if t ∈ l then some (n + firstIdx l t) else none := by
  induction l generalizing n with
  | nil => simp [idxPairs, assocFind]
  | cons u us ih =>
    simp only [idxPairs, assocFind]
    by_cases hu : u = t
    · subst hu
      simp [firstIdx]
    · rw [if_neg hu, ih]
      by_cases hm : t ∈ us
      · rw [if_pos hm, if_pos (List.mem_cons_of_mem _ hm)]
        rw [firstIdx, if_neg hu]
        congr 1
        omega
      · rw [if_neg hm, if_neg ?_]
        simp only [List.mem_cons]
        rintro (rfl | h)
        · exact hu rfl
        · exact hm h

theorem firstIdx_lt_of_mem {l : List String} {x : String} (h : x ∈ l) :
    firstIdx l x < l.length := by
  induction l with
  | nil => cases h
  | cons t ts ih =>
    rw [firstIdx]
    by_cases ht : t = x
    · rw [if_pos ht]; simp
    · rw [if_neg ht]
      rcases List.mem_cons.mp h with rfl | h2
      · exact absurd rfl ht
      · simpa using ih h2

theorem getD_firstIdx {l : List String} {x : String} (h : x ∈ l) :
    l.getD (firstIdx l x) "" = x := by
  induction l with
  | nil => cases h
  | cons t ts ih =>
    rw [firstIdx]
    by_cases ht : t = x
    · rw [if_pos ht]; exact ht
    · rw [if_neg ht]
      rcases List.mem_cons.mp h with rfl | h2
      · exact absurd rfl ht
      · simpa using ih h2

theorem firstIdx_append_of_mem {l : List String} {x : String} (h : x ∈ l)
    (d : List String) : firstIdx (l ++ d) x = firstIdx l x := by
  induction l with
  | nil => cases h
  | cons t ts ih =>
    rw [List.cons_append, firstIdx, firstIdx]
    by_cases ht : t = x
    · rw [if_pos ht, if_pos ht]
    · rw [if_neg ht, if_neg ht]
      rcases List.mem_cons.mp h with rfl | h2
      · exact absurd rfl ht
      · rw [ih h2]

theorem firstIdx_append_of_not_mem {l : List String} {x : String}
    (h : x ∉ l) (d : List String) :
    firstIdx (l ++ d) x = l.length + firstIdx d x := by
  induction l with
  | nil => simp
  | cons t ts ih =>
    rw [List.cons_append, firstIdx]
    have ht : t ≠ x := fun he => h (he ▸ List.mem_cons_self _ _)
    rw [if_neg ht, ih (fun h2 => h (List.mem_cons_of_mem _ h2))]
    simp only [List.length_cons]
    omega

theorem firstIdx_self_append {l : List String} {x : String} (h : x ∉ l)
    (d : List String) : firstIdx (l ++ x :: d) x = l.length := by
  rw [firstIdx_append_of_not_mem h]
  rw [firstIdx, if_pos rfl]
  omega

theorem procTerms_spec (pt : String → String) :
    ∀ (raws : List String) (tf : List String) (ids : List Nat),
      tf.Nodup →
      ∃ d, procTerms pt (idxPairs tf 0) tf ids raws =
          (idxPairs (tf ++ d) 0, tf ++ d,
            ids ++ raws.map (fun r => firstIdx (tf ++ d) (pt r))) ∧
        (tf ++ d).Nodup ∧
        (∀ x, x ∈ tf ++ d ↔ x ∈ tf ∨ x ∈ raws.map pt) := by
  intro raws
  induction raws with
  | nil =>
    intro tf ids hnd
    refine ⟨[], ?_, by simpa using hnd, by simp⟩
    simp [procTerms]
  | cons raw rest ih =>
    intro tf ids hnd
    have hfind := assocFind_idxPairs tf 0 (pt raw)
    by_cases hm : pt raw ∈ tf
    · rw [if_pos hm] at hfind
      have hstep : procTerms pt (idxPairs tf 0) tf ids (raw :: rest) =
          procTerms pt (idxPairs tf 0) tf
            (ids ++ [0 + firstIdx tf (pt raw)]) rest := by
        rw [procTerms, hfind]
      obtain ⟨d, heq, hnd2, hmem⟩ :=
        ih tf (ids ++ [0 + firstIdx tf (pt raw)]) hnd
      refine ⟨d, ?_, hnd2, ?_⟩
      · rw [hstep, heq]
        have hfi : firstIdx (tf ++ d) (pt raw) = firstIdx tf (pt raw) :=
          firstIdx_append_of_mem hm d
        simp [hfi]
      · intro x
        rw [hmem x]
        simp only [List.map_cons, List.mem_cons]
        constructor
        · rintro (h | h)
          · exact Or.inl h
          · exact Or.inr (Or.inr h)
        · rintro (h | rfl | h)
          · exact Or.inl h
          · exact Or.inl hm
          · exact Or.inr h
    · rw [if_neg hm] at hfind
      have hlen : (idxPairs tf 0).length = tf.length := idxPairs_length tf 0
      have hstep : procTerms pt (idxPairs tf 0) tf ids (raw :: rest) =
          procTerms pt (idxPairs tf 0 ++ [(pt raw, (idxPairs tf 0).length)])
            (tf ++ [pt raw]) (ids ++ [(idxPairs tf 0).length]) rest := by
        rw [procTerms, hfind]
      have hmap2 : idxPairs tf 0 ++ [(pt raw, (idxPairs tf 0).length)] =
          idxPairs (tf ++ [pt raw]) 0 := by
        rw [idxPairs_append]
        simp [idxPairs, hlen]
      rw [hmap2, hlen] at hstep
      have hnd2 : (tf ++ [pt raw]).Nodup := by
        rw [List.nodup_append]
        exact ⟨hnd, List.nodup_singleton _, by simpa using hm⟩
      obtain ⟨d, heq, hnd3, hmem⟩ :=
        ih (tf ++ [pt raw]) (ids ++ [tf.length]) hnd2
      refine ⟨pt raw :: d, ?_, ?_, ?_⟩
      · rw [hstep, heq]
        have hassoc : tf ++ [pt raw] ++ d = tf ++ (pt raw :: d) := by simp
        rw [hassoc]
        have hfi : firstIdx (tf ++ (pt raw :: d)) (pt raw) = tf.length :=
          firstIdx_self_append hm d
        simp [hfi]
      · have h2 := hnd3
        rw [List.append_assoc] at h2
        simpa using h2
      · intro x
        have hx := hmem x
        rw [List.append_assoc] at hx
        simp only [List.singleton_append] at hx
        rw [hx]
        simp only [List.mem_append, List.mem_singleton, List.map_cons,
          List.mem_cons]
        tauto

theorem runDocs_spec (pt : String → String)
    (pc : String → List String) :
    ∀ (rs : List Document_Record) (tf : List String), tf.Nodup →
      ∃ d, runDocs pt pc rs (idxPairs tf 0) tf =
          (tf ++ d, rs.map (fun r =>
            (pc r.content).map (fun w => firstIdx (tf ++ d) (pt w)))) ∧
        (tf ++ d).Nodup ∧
        (∀ x, x ∈ tf ++ d ↔
          x ∈ tf ∨ ∃ r ∈ rs, ∃ w ∈ pc r.content, pt w = x) := by
  intro rs
  induction rs with
  | nil =>
    intro tf hnd
    refine ⟨[], ?_, by simpa using hnd, by simp⟩
    simp [runDocs]
  | cons r rs ih =>
    intro tf hnd
    obtain ⟨d1, heq1, hnd1, hmem1⟩ := procTerms_spec pt (pc r.content) tf [] hnd
    obtain ⟨d2, heq2, hnd2, hmem2⟩ := ih (tf ++ d1) hnd1
    refine ⟨d1 ++ d2, ?_, ?_, ?_⟩
    · simp only [runDocs]
      rw [heq1]
      simp only [heq2, List.nil_append]
      simp only [← List.append_assoc]
      refine congrArg _ ?_
      refine congrArg₂ _ ?_ rfl
      refine List.map_congr_left ?_
      intro w hw
      have hwm : pt w ∈ tf ++ d1 :=
        (hmem1 _).mpr (Or.inr (List.mem_map_of_mem _ hw))
      exact (firstIdx_append_of_mem hwm d2).symm
    · rw [← List.append_assoc]; exact hnd2
    · intro x
      rw [← List.append_assoc, hmem2 x, hmem1 x]
      simp only [List.mem_map, List.mem_cons]
      constructor
      · rintro ((h | ⟨w, hw, rfl⟩) | ⟨r2, h2, hw⟩)
        · exact Or.inl h
        · exact Or.inr ⟨r, Or.inl rfl, w, hw, rfl⟩
        · exact Or.inr ⟨r2, Or.inr h2, hw⟩
      · rintro (h | ⟨r2, (rfl | h2), w, hw, hx⟩)
        · exact Or.inl (Or.inl h)
        · exact Or.inl (Or.inr ⟨w, hw, hx⟩)
        · exact Or.inr ⟨r2, h2, w, hw, hx⟩

theorem runBatch_spec (pt : String → String) (pc : String → List String)
    (records : List Document_Record) :
    ∃ tf, runBatch pt pc records =
        ⟨records.length,
          records.map (fun r =>
            (pc r.content).map (fun w => firstIdx tf (pt w))),
          records.map (·.trecid), records.map (·.url), tf⟩ ∧
      tf.Nodup ∧
      (∀ x, x ∈ tf ↔ ∃ r ∈ records, ∃ w ∈ pc r.content, pt w = x) := by
  obtain ⟨d, heq, hnd, hmem⟩ := runDocs_spec pt pc records [] List.nodup_nil
  rw [List.nil_append] at heq hnd hmem
  refine ⟨d, ?_, hnd, ?_⟩
  · simp only [runBatch]
    have h0 : (idxPairs [] 0 : List (String × Nat)) = [] := rfl
    rw [← h0, heq]
  · intro x
    rw [hmem x]
    simp

/-! ## The remapper and the binary file layout -/

theorem assocFind_append (a b : List (String × Nat)) (t : String) :
    assocFind (a ++ b) t =
      match assocFind a t with
      | some v => some v
      | none => assocFind b t := by
  induction a with
  | nil => simp [assocFind]
  | cons p rest ih =>
    obtain ⟨k, v⟩ := p
    rw [List.cons_append, assocFind, assocFind]
    by_cases hk : k = t
    · rw [if_pos hk, if_pos hk]
    · rw [if_neg hk, if_neg hk, ih]

theorem rmGo_eq :
    ∀ (ts : List String) (n : Nat) (acc : List (String × Nat)),
      ts.Nodup → (∀ t ∈ ts, assocFind acc t = none) →
      rmGo ts n acc = acc ++ idxPairs ts n := by
  intro ts
  induction ts with
  | nil => intro n acc _ _; simp [rmGo, idxPairs]
  | cons t ts ih =>
    intro n acc hnd hdisj
    rw [rmGo]
    have hft : assocFind acc t = none := hdisj t (List.mem_cons_self _ _)
    rw [hft]
    simp only [Option.isSome_none, Bool.false_eq_true, if_false]
    have hnd2 := List.nodup_cons.mp hnd
    have hdisj2 : ∀ u ∈ ts, assocFind (acc ++ [(t, n)]) u = none := by
      intro u hu
      rw [assocFind_append, hdisj u (List.mem_cons_of_mem _ hu)]
      rw [assocFind, if_neg ?_, assocFind]
      rintro rfl
      exact hnd2.1 hu
    rw [ih (n + 1) _ hnd2.2 hdisj2, List.append_assoc]
    rfl

theorem reverse_mapping_eq {g : List String} (h : g.Nodup) :
    reverse_mapping g = idxPairs g 0 := by
  rw [reverse_mapping, rmGo_eq g 0 [] h (fun t _ => rfl), List.nil_append]

theorem rmLookup_eq {g : List String} {t : String} (hnd : g.Nodup)
    (h : t ∈ g) : rmLookup (reverse_mapping g) t = firstIdx g t := by
  rw [rmLookup, reverse_mapping_eq hnd, assocFind_idxPairs, if_pos h]
  simp

theorem sortedLt_nodup {l : List String} (h : SortedLt l) : l.Nodup :=
  List.Pairwise.imp (fun hab => ltP_ne hab) h

theorem decodeFuel_irrel :
    ∀ (n m : Nat) (w : List Nat), w.length ≤ n → w.length ≤ m →
      decodeFuel n w = decodeFuel m w := by
  intro n
  induction n with
  | zero =>
    intro m w hn hm
    cases w with
    | nil => cases m <;> rfl
    | cons a rest => simp at hn
  | succ n ih =>
    intro m w hn hm
    cases w with
    | nil => cases m <;> rfl
    | cons len rest =>
      cases m with
      | zero => simp at hm
      | succ m =>
        rw [decodeFuel, decodeFuel]
        have hd : (rest.drop len).length ≤ rest.length :=
          (List.drop_sublist _ _).length_le
        simp only [List.length_cons] at hn hm
        rw [ih m (rest.drop len) (by omega) (by omega)]

theorem decodeDocs_cons (len : Nat) (rest : List Nat) :
    decodeDocs (len :: rest) = rest.take len :: decodeDocs (rest.drop len) := by
  show decodeFuel (rest.length + 1) (len :: rest) = _
  rw [decodeFuel]
  refine congrArg _ ?_
  exact decodeFuel_irrel _ _ _ (List.drop_sublist _ _).length_le (le_refl _)

theorem remapFuel_irrel (f : Nat → Nat) :
    ∀ (n m : Nat) (w : List Nat), w.length ≤ n → w.length ≤ m →
      remapFuel f n w = remapFuel f m w := by
  intro n
  induction n with
  | zero =>
    intro m w hn hm
    cases w with
    | nil => cases m <;> rfl
    | cons a rest => simp at hn
  | succ n ih =>
    intro m w hn hm
    cases w with
    | nil => cases m <;> rfl
    | cons len rest =>
      cases m with
      | zero => simp at hm
      | succ m =>
        rw [remapFuel, remapFuel]
        have hd : (rest.drop len).length ≤ rest.length :=
          (List.drop_sublist _ _).length_le
        simp only [List.length_cons] at hn hm
        rw [ih m (rest.drop len) (by omega) (by omega)]

theorem remapWords_cons (f : Nat → Nat) (len : Nat) (rest : List Nat) :
    remapWords f (len :: rest) =
      len :: ((rest.take len).map f ++ remapWords f (rest.drop len)) := by
  show remapFuel f (rest.length + 1) (len :: rest) = _
  rw [remapFuel]
  refine congrArg _ (congrArg _ ?_)
  exact remapFuel_irrel f _ _ _ (List.drop_sublist _ _).length_le (le_refl _)

theorem decodeDocs_flatten (docs : List (List Nat)) :
    decodeDocs ((docs.map (fun d => d.length :: d)).flatten) = docs := by
  induction docs with
  | nil => rfl
  | cons d ds ih =>
    rw [List.map_cons, List.flatten_cons, List.cons_append, decodeDocs_cons]
    rw [List.take_left, List.drop_left, ih]

theorem remapWords_flatten (f : Nat → Nat) (docs : List (List Nat)) :
    remapWords f ((docs.map (fun d => d.length :: d)).flatten) =
      ((docs.map (List.map f)).map (fun d => d.length :: d)).flatten := by
  induction docs with
  | nil => rfl
  | cons d ds ih =>
    rw [List.map_cons, List.flatten_cons, List.cons_append, remapWords_cons]
    rw [List.take_left, List.drop_left, ih]
    simp

theorem indexFile_drop2 (count : Nat) (docs : List (List Nat)) :
    (indexFile count docs).drop 2 = (docs.map (fun d => d.length :: d)).flatten := by
  rw [indexFile]
  rfl

theorem remapFile_indexFile (f : Nat → Nat) (count : Nat)
    (docs : List (List Nat)) :
    remapFile f (indexFile count docs) =
      indexFile count (docs.map (List.map f)) := by
  rw [remapFile, indexFile_drop2, remapWords_flatten]
  rw [indexFile, indexFile]
  rfl

/-! ## The read loop -/

theorem splitLoop_flatten (b : Int) :
    ∀ (rs : List Document_Record) (acc : List Document_Record),
      (splitLoop b acc rs).flatten = acc ++ rs := by
  intro rs
  induction rs with
  | nil => intro acc; simp [splitLoop]
  | cons r rs ih =>
    intro acc
    rw [splitLoop]
    by_cases h : (acc ++ [r]).length = usize b
    · rw [if_pos h, List.flatten_cons, ih]
      simp
    · rw [if_neg h, ih]
      simp

theorem splitLoop_sum (b : Int) (rs : List Document_Record) :
    ((splitLoop b [] rs).map List.length).sum = rs.length := by
  have h := congrArg List.length (splitLoop_flatten b rs [])
  rw [List.length_flatten, List.nil_append] at h
  exact h

/-! ## `runBatch`, restated through its own output -/

theorem runBatch_eq (pt : String → String) (pc : String → List String)
    (records : List Document_Record) :
    runBatch pt pc records =
      ⟨records.length,
        records.map (fun r => (pc r.content).map
          (fun w => firstIdx (runBatch pt pc records).terms (pt w))),
        records.map (·.trecid), records.map (·.url),
        (runBatch pt pc records).terms⟩ := by
  obtain ⟨tf, heq, -, -⟩ := runBatch_spec pt pc records
  rw [heq]

theorem runBatch_terms_nodup (pt : String → String)
    (pc : String → List String) (records : List Document_Record) :
    (runBatch pt pc records).terms.Nodup := by
  obtain ⟨tf, heq, hnd, -⟩ := runBatch_spec pt pc records
  rw [heq]
  exact hnd

theorem runBatch_terms_mem (pt : String → String)
    (pc : String → List String) (records : List Document_Record) :
    ∀ x, x ∈ (runBatch pt pc records).terms ↔
      ∃ r ∈ records, ∃ w ∈ pc r.content, pt w = x := by
  obtain ⟨tf, heq, -, hmem⟩ := runBatch_spec pt pc records
  rw [heq]
  exact hmem

/-- The remapping phase on one batch file produced by `run`: the decoded
documents are the batch's documents with every local id replaced by the
global position of its term. -/
theorem remap_batch_docs (pt : String → String) (pc : String → List String)
    (bt : List Document_Record) {ts : List String} (hnd : ts.Nodup)
    (hsub : ∀ x ∈ (runBatch pt pc bt).terms, x ∈ ts) :
    decodeDocs ((remapFile (remapFun ts (runBatch pt pc bt).terms)
        (indexFile (runBatch pt pc bt).doc_count (runBatch pt pc bt).docs)).drop 2) =
      bt.map (fun r => (pc r.content).map (fun w => firstIdx ts (pt w))) := by
  obtain ⟨tf, heq, htfnd, hmem⟩ := runBatch_spec pt pc bt
  have hterms : (runBatch pt pc bt).terms = tf := by rw [heq]
  have hdocs : (runBatch pt pc bt).docs =
      bt.map (fun r => (pc r.content).map (fun w => firstIdx tf (pt w))) := by
    rw [heq]
  rw [hterms] at hsub
  rw [hterms, hdocs, remapFile_indexFile, indexFile_drop2, decodeDocs_flatten]
  rw [List.map_map]
  refine List.map_congr_left ?_
  intro r hr
  simp only [Function.comp_apply]
  rw [List.map_map]
  refine List.map_congr_left ?_
  intro w hw
  simp only [Function.comp_apply]
  have hwtf : pt w ∈ tf := (hmem _).mpr ⟨r, hr, w, hw, rfl⟩
  rw [remapFun, getD_firstIdx hwtf]
  exact rmLookup_eq hnd (hsub _ hwtf)

/-! ## The end-to-end build -/

theorem mem_allRaw {pt : String → String} {pc : String → List String}
    {records : List Document_Record} {x : String} :
    x ∈ allRaw pt pc records ↔
      ∃ r ∈ records, ∃ w ∈ pc r.content, pt w = x := by
  rw [allRaw, List.mem_flatten]
  constructor
  · rintro ⟨l, hl, hx⟩
    obtain ⟨r, hr, rfl⟩ := List.mem_map.mp hl
    obtain ⟨w, hw, rfl⟩ := List.mem_map.mp hx
    exact ⟨r, hr, w, hw, rfl⟩
  · rintro ⟨r, hr, w, hw, rfl⟩
    exact ⟨(pc r.content).map pt, List.mem_map_of_mem _ hr,
      List.mem_map_of_mem _ hw⟩

theorem globalTerms_sortedLt (pt : String → String)
    (pc : String → List String) (records : List Document_Record) :
    SortedLt (globalTerms pt pc records) :=
  sortedLt_dedupAdj (sortedLe_sort _)

theorem mem_globalTerms {pt : String → String} {pc : String → List String}
    {records : List Document_Record} {x : String} :
    x ∈ globalTerms pt pc records ↔ x ∈ allRaw pt pc records := by
  rw [globalTerms, mem_dedupAdj, mem_sort]

/-- `build` with a valid configuration computes the batching-independent
canonical output, for every `batch_size` (even nonpositive ones, which
produce a single batch at end of stream). -/
theorem build_canonical (pt : String → String) (pc : String → List String)
    (b : Int) (threads : Nat) (records : List Document_Record)
    (ht : 2 ≤ threads) :
    build pt pc b threads records = some (canonicalOut pt pc records) := by
  have hab : configAborts threads = false := by
    rw [configAborts]
    simp only [decide_eq_false_iff_not, not_lt]
    omega
  have hflat : (splitLoop b [] records).flatten = records := by
    simpa using splitLoop_flatten b records []
  have hnodup : ∀ tfb ∈ ((splitLoop b [] records).map (runBatch pt pc)).map
      (·.terms), tfb.Nodup := by
    intro tfb htfb
    obtain ⟨o, ho, rfl⟩ := List.mem_map.mp htfb
    obtain ⟨bt, hbt, rfl⟩ := List.mem_map.mp ho
    exact runBatch_terms_nodup pt pc bt
  obtain ⟨ts, hct, hsorted, hmemts⟩ := collect_terms_sorted hnodup
  have htseq : ts = globalTerms pt pc records := by
    refine sortedLt_unique hsorted (globalTerms_sortedLt pt pc records) ?_
    intro x
    rw [hmemts x, mem_globalTerms, mem_allRaw]
    constructor
    · rintro ⟨tfb, htfb, hx⟩
      obtain ⟨o, ho, rfl⟩ := List.mem_map.mp htfb
      obtain ⟨bt, hbt, rfl⟩ := List.mem_map.mp ho
      obtain ⟨r, hr, w, hw, rfl⟩ := (runBatch_terms_mem pt pc bt x).mp hx
      refine ⟨r, ?_, w, hw, rfl⟩
      rw [← hflat, List.mem_flatten]
      exact ⟨bt, hbt, hr⟩
    · rintro ⟨r, hr, w, hw, rfl⟩
      rw [← hflat, List.mem_flatten] at hr
      obtain ⟨bt, hbt, hr⟩ := hr
      refine ⟨(runBatch pt pc bt).terms, ?_, ?_⟩
      · exact List.mem_map_of_mem _ (List.mem_map_of_mem _ hbt)
      · exact (runBatch_terms_mem pt pc bt _).mpr ⟨r, hr, w, hw, rfl⟩
  have hgnd : ts.Nodup := sortedLt_nodup hsorted
  have hdocs : (((splitLoop b [] records).map (runBatch pt pc)).map
      (fun o => decodeDocs ((remapFile (remapFun ts o.terms)
        (indexFile o.doc_count o.docs)).drop 2))).flatten =
      records.map (fun r =>
        (pc r.content).map (fun w => firstIdx ts (pt w))) := by
    rw [List.map_map]
    have hper : ∀ bt ∈ splitLoop b [] records,
        ((fun o => decodeDocs ((remapFile (remapFun ts o.terms)
            (indexFile o.doc_count o.docs)).drop 2)) ∘ runBatch pt pc) bt =
          bt.map (fun r =>
            (pc r.content).map (fun w => firstIdx ts (pt w))) := by
      intro bt hbt
      simp only [Function.comp_apply]
      refine remap_batch_docs pt pc bt hgnd ?_
      intro x hx
      rw [hmemts x]
      exact ⟨(runBatch pt pc bt).terms,
        List.mem_map_of_mem _ (List.mem_map_of_mem _ hbt), hx⟩
    rw [List.map_congr_left hper]
    rw [← List.map_flatten, hflat]
  have hdocuments : (((splitLoop b [] records).map (runBatch pt pc)).map
      (·.documents)).flatten = records.map (·.trecid) := by
    rw [List.map_map]
    have hper : ∀ bt ∈ splitLoop b [] records,
        ((·.documents) ∘ runBatch pt pc) bt = bt.map (·.trecid) :=
      fun bt _ => rfl
    rw [List.map_congr_left hper, ← List.map_flatten, hflat]
  have hurls : (((splitLoop b [] records).map (runBatch pt pc)).map
      (·.urls)).flatten = records.map (·.url) := by
    rw [List.map_map]
    have hper : ∀ bt ∈ splitLoop b [] records,
        ((·.urls) ∘ runBatch pt pc) bt = bt.map (·.url) :=
      fun bt _ => rfl
    rw [List.map_congr_left hper, ← List.map_flatten, hflat]
  have hmf : mergeFiles (((splitLoop b [] records).map List.length).sum)
      ((splitLoop b [] records).map (runBatch pt pc)) =
      some ⟨records.length,
        records.map (fun r =>
          (pc r.content).map (fun w => firstIdx ts (pt w))),
        records.map (·.trecid), records.map (·.url), ts⟩ := by
    rw [mergeFiles]
    simp only [hct]
    rw [hdocs, hdocuments, hurls, splitLoop_sum]
  simp only [build, hab, Bool.false_eq_true, if_false]
  simp only [hmf]
  rw [htseq, canonicalOut]

/-! ## The HTML run emitter, characterized by a single-pass scan -/

theorem alnumFuel_irrel :
    ∀ (n m : Nat) (l : List Char), l.length ≤ n → l.length ≤ m →
      alnumFuel n l = alnumFuel m l := by
  intro n
  induction n with
  | zero =>
    intro m l hn hm
    cases l with
    | nil => cases m <;> rfl
    | cons c cs => simp at hn
  | succ n ih =>
    intro m l hn hm
    cases l with
    | nil => cases m <;> rfl
    | cons c cs =>
      cases m with
      | zero => simp at hm
      | succ m =>
        rw [alnumFuel, alnumFuel]
        simp only [List.length_cons] at hn hm
        have hd : (cs.dropWhile cIsAlnum).length ≤ cs.length :=
          (List.dropWhile_sublist _).length_le
        by_cases hc : cIsAlnum c = true
        · rw [if_pos hc, if_pos hc]
          rw [ih m _ (by omega) (by omega)]
        · rw [if_neg hc, if_neg hc]
          rw [ih m _ (by omega) (by omega)]

theorem alnumRuns_nil : alnumRuns [] = [] := rfl

theorem alnumRuns_cons_pos {c : Char} {cs : List Char}
    (h : cIsAlnum c = true) :
    alnumRuns (c :: cs) = String.mk (c :: cs.takeWhile cIsAlnum) ::
      alnumRuns (cs.dropWhile cIsAlnum) := by
  show alnumFuel (cs.length + 1) (c :: cs) = _
  rw [alnumFuel, if_pos h]
  exact congrArg _ (alnumFuel_irrel _ _ _
    (List.dropWhile_sublist _).length_le (le_refl _))

theorem alnumRuns_cons_neg {c : Char} {cs : List Char}
    (h : ¬cIsAlnum c = true) : alnumRuns (c :: cs) = alnumRuns cs := by
  show alnumFuel (cs.length + 1) (c :: cs) = _
  rw [alnumFuel, if_neg h]
  rfl

theorem runsSpec_eq_aux :
    ∀ (n : Nat) (l : List Char), l.length ≤ n →
      (runsSpec [] l = alnumRuns l) ∧
      (∀ cur, cur ≠ [] → runsSpec cur l =
        String.mk (cur.reverse ++ l.takeWhile cIsAlnum) ::
          alnumRuns (l.dropWhile cIsAlnum)) := by
  intro n
  induction n with
  | zero =>
    intro l h
    cases l with
    | cons c cs => simp at h
    | nil =>
      refine ⟨by simp [runsSpec, alnumRuns_nil], ?_⟩
      intro cur hcur
      cases cur with
      | nil => exact absurd rfl hcur
      | cons a as => simp [runsSpec, alnumRuns_nil]
  | succ n ih =>
    intro l h
    cases l with
    | nil =>
      refine ⟨by simp [runsSpec, alnumRuns_nil], ?_⟩
      intro cur hcur
      cases cur with
      | nil => exact absurd rfl hcur
      | cons a as => simp [runsSpec, alnumRuns_nil]
    | cons c cs =>
      have hcs : cs.length ≤ n := by
        simp only [List.length_cons] at h
        omega
      constructor
      · rw [runsSpec]
        by_cases hc : cIsAlnum c = true
        · rw [if_pos hc]
          rw [(ih cs hcs).2 [c] (by simp)]
          rw [alnumRuns_cons_pos hc]
          simp
        · rw [if_neg hc]
          have he : (([] : List Char).isEmpty = true) := rfl
          rw [if_pos he, (ih cs hcs).1, alnumRuns_cons_neg hc]
      · intro cur hcur
        rw [runsSpec]
        by_cases hc : cIsAlnum c = true
        · rw [if_pos hc]
          rw [(ih cs hcs).2 (c :: cur) (by simp)]
          rw [List.takeWhile_cons_of_pos hc, List.dropWhile_cons_of_pos hc]
          simp
        · rw [if_neg hc]
          have he : cur.isEmpty = false := by
            cases cur with
            | nil => exact absurd rfl hcur
            | cons a as => rfl
          rw [if_neg (by rw [he]; exact Bool.false_ne_true)]
          rw [(ih cs hcs).1]
          rw [List.takeWhile_cons_of_neg hc, List.dropWhile_cons_of_neg hc]
          rw [alnumRuns_cons_neg hc]
          simp

theorem alnumRuns_eq_runsSpec (l : List Char) : alnumRuns l = runsSpec [] l :=
  ((runsSpec_eq_aux l.length l (le_refl _)).1).symm

/-! ## Aborting and ignoring `valid` -/

theorem build_aborts (pt : String → String) (pc : String → List String)
    (b : Int) {threads : Nat} (h : threads < 2)
    (records : List Document_Record) :
    build pt pc b threads records = none := by
  have hc : configAborts threads = true := by
    rw [configAborts]
    simpa using h
  simp [build, hc]

theorem canonicalOut_valid_flip (pt : String → String)
    (pc : String → List String) (records : List Document_Record)
    (f : Document_Record → Bool) :
    canonicalOut pt pc (records.map (fun r => { r with valid := f r })) =
      canonicalOut pt pc records := by
  rw [canonicalOut, canonicalOut, globalTerms, globalTerms, allRaw, allRaw]
  simp only [List.map_map, List.length_map]
  rfl

theorem getD_map_doc {β : Type} (f : Document_Record → β) (d : β)
    (records : List Document_Record) {k : Nat} (hk : k < records.length) :
    (records.map f).getD k d = f (records.getD k default) := by
  rw [List.getD_eq_getElem _ _ (by simpa using hk),
    List.getD_eq_getElem _ _ hk]
  exact List.getElem_map _

/-! # The claims -/

/-- C1 (counterexample): `build` counts a record the source produced with
`valid = false`: with one invalid record the output has one document, one
`.documents` line and one `.urls` line, and the header's `doc_count` word
is 1 although the number of valid records is 0.  The builder never reads
`valid`. -/
theorem C1_counterexample :
    build (fun s => s) parse_plaintext_content 1 2
        [(⟨"d0", "u0", "", false⟩ : Document_Record)] =
      some ⟨[1, 1, 0], ["d0"], ["u0"], []⟩ ∧
    (⟨"d0", "u0", "", false⟩ : Document_Record).valid = false :=
  ⟨by decide, rfl⟩

/-- C1 (amended): the builder never consults `valid`: every record the
source produces is counted, so flipping every `valid` flag leaves all four
output files unchanged, and the line count of `.documents` equals the total
number of records produced (valid or not). -/
theorem C1_invalid_records_still_counted (pt : String → String)
    (pc : String → List String) (b : Int) (threads : Nat)
    (records : List Document_Record) (f : Document_Record → Bool)
    (out : BuildOutput)
    (hout : build pt pc b threads records = some out) :
    build pt pc b threads
        (records.map (fun r => { r with valid := f r })) = some out ∧
    out.documents.length = records.length := by
  rcases Nat.lt_or_ge threads 2 with hlt | hge
  · rw [build_aborts pt pc b hlt records] at hout
    cases hout
  · rw [build_canonical pt pc b threads records hge] at hout
    injection hout with hout
    subst hout
    refine ⟨?_, by simp [canonicalOut]⟩
    rw [build_canonical pt pc b threads _ hge, canonicalOut_valid_flip]

/-- C1 (witness): the amended claim at a concrete input. -/
theorem C1_witness :
    (build (fun s => s) parse_plaintext_content 1 2
        [(⟨"d0", "u0", "", false⟩ : Document_Record)] =
      some ⟨[1, 1, 0], ["d0"], ["u0"], []⟩) ∧
    (build (fun s => s) parse_plaintext_content 1 2
        ([(⟨"d0", "u0", "", false⟩ : Document_Record)].map
          (fun r => { r with valid := (fun _ => true) r })) =
        some ⟨[1, 1, 0], ["d0"], ["u0"], []⟩ ∧
      (⟨[1, 1, 0], ["d0"], ["u0"], []⟩ : BuildOutput).documents.length =
        [(⟨"d0", "u0", "", false⟩ : Document_Record)].length) :=
  ⟨by decide,
    C1_invalid_records_still_counted (fun s => s) parse_plaintext_content 1 2
      [⟨"d0", "u0", "", false⟩] (fun _ => true) ⟨[1, 1, 0], ["d0"], ["u0"], []⟩
      (by decide)⟩

/-- C2: over the `.terms` files of any family of batch workers,
`collect_terms` returns the duplicate-free, strictly byte-wise
lexicographically sorted sequence of all distinct terms occurring in any
batch, and `merge` writes exactly this sequence to `<basename>.terms`;
hence `.terms` is strictly increasing with no duplicates. -/
theorem C2_global_terms_sorted_dedup (pt : String → String)
    (pc : String → List String)
    (recordBatches : List (List Document_Record)) (count : Nat) :
    ∃ ts out,
      collect_terms ((recordBatches.map (runBatch pt pc)).map (·.terms)) =
        some ts ∧
      mergeFiles count (recordBatches.map (runBatch pt pc)) = some out ∧
      out.terms = ts ∧
      SortedLt ts ∧
      (∀ x, x ∈ ts ↔
        ∃ tf ∈ (recordBatches.map (runBatch pt pc)).map (·.terms), x ∈ tf) := by
  have hnodup : ∀ tfb ∈ (recordBatches.map (runBatch pt pc)).map (·.terms),
      tfb.Nodup := by
    intro tfb htfb
    obtain ⟨o, ho, rfl⟩ := List.mem_map.mp htfb
    obtain ⟨bt, hbt, rfl⟩ := List.mem_map.mp ho
    exact runBatch_terms_nodup pt pc bt
  obtain ⟨ts, hct, hsort, hmem⟩ := collect_terms_sorted hnodup
  have hmf : ∃ out,
      mergeFiles count (recordBatches.map (runBatch pt pc)) = some out ∧
      out.terms = ts := by
    rw [mergeFiles]
    simp only [hct]
    exact ⟨_, rfl, rfl⟩
  obtain ⟨out, hmfe, houtterms⟩ := hmf
  exact ⟨ts, out, hct, hmfe, houtterms, hsort, hmem⟩

/-- C3: after remapping a batch file produced by `run`, every term-id word
of a document equals the position in the global term list of the
corresponding batch term, and in particular is a valid index into the
global list. -/
theorem C3_remap_to_global_ids (pt : String → String)
    (pc : String → List String)
    (recordBatches : List (List Document_Record)) (o : BatchOutput)
    (g : List String)
    (ho : o ∈ recordBatches.map (runBatch pt pc))
    (hg : collect_terms ((recordBatches.map (runBatch pt pc)).map (·.terms)) =
      some g) :
    decodeDocs ((remapFile (remapFun g o.terms)
        (indexFile o.doc_count o.docs)).drop 2) =
      o.docs.map (List.map (remapFun g o.terms)) ∧
    ∀ d ∈ o.docs, ∀ old ∈ d,
      remapFun g o.terms old < g.length ∧
      g.getD (remapFun g o.terms old) "" = o.terms.getD old "" := by
  have hnodup : ∀ tfb ∈ (recordBatches.map (runBatch pt pc)).map (·.terms),
      tfb.Nodup := by
    intro tfb htfb
    obtain ⟨o2, ho2, rfl⟩ := List.mem_map.mp htfb
    obtain ⟨bt, hbt, rfl⟩ := List.mem_map.mp ho2
    exact runBatch_terms_nodup pt pc bt
  obtain ⟨ts, hct, hsort, hmem⟩ := collect_terms_sorted hnodup
  rw [hct] at hg
  injection hg with hg
  subst hg
  obtain ⟨bt, hbt, rfl⟩ := List.mem_map.mp ho
  constructor
  · rw [remapFile_indexFile, indexFile_drop2, decodeDocs_flatten]
  · intro d hd old hold
    have hdocs : (runBatch pt pc bt).docs =
        bt.map (fun r => (pc r.content).map
          (fun w => firstIdx (runBatch pt pc bt).terms (pt w))) := by
      rw [runBatch_eq]
    rw [hdocs] at hd
    obtain ⟨r, hr, rfl⟩ := List.mem_map.mp hd
    obtain ⟨w, hw, rfl⟩ := List.mem_map.mp hold
    have hwtf : pt w ∈ (runBatch pt pc bt).terms :=
      (runBatch_terms_mem pt pc bt _).mpr ⟨r, hr, w, hw, rfl⟩
    have hwg : pt w ∈ ts :=
      (hmem _).mpr ⟨(runBatch pt pc bt).terms,
        List.mem_map_of_mem _ (List.mem_map_of_mem _ hbt), hwtf⟩
    have hrm : remapFun ts (runBatch pt pc bt).terms
        (firstIdx (runBatch pt pc bt).terms (pt w)) = firstIdx ts (pt w) := by
      rw [remapFun, getD_firstIdx hwtf]
      exact rmLookup_eq (sortedLt_nodup hsort) hwg
    rw [hrm]
    refine ⟨firstIdx_lt_of_mem hwg, ?_⟩
    rw [getD_firstIdx hwg, getD_firstIdx hwtf]

/-- C3 (witness): the claim at a concrete batch. -/
theorem C3_witness :
    ((runBatch (fun s => s) parse_plaintext_content
        [(⟨"d0", "u0", "a", true⟩ : Document_Record)]) ∈
      [[(⟨"d0", "u0", "a", true⟩ : Document_Record)]].map
        (runBatch (fun s => s) parse_plaintext_content)) ∧
    (collect_terms (([[(⟨"d0", "u0", "a", true⟩ : Document_Record)]].map
        (runBatch (fun s => s) parse_plaintext_content)).map (·.terms)) =
      some ["a"]) ∧
    (decodeDocs ((remapFile (remapFun ["a"]
        (runBatch (fun s => s) parse_plaintext_content
          [(⟨"d0", "u0", "a", true⟩ : Document_Record)]).terms)
        (indexFile (runBatch (fun s => s) parse_plaintext_content
          [(⟨"d0", "u0", "a", true⟩ : Document_Record)]).doc_count
          (runBatch (fun s => s) parse_plaintext_content
            [(⟨"d0", "u0", "a", true⟩ : Document_Record)]).docs)).drop 2) =
      (runBatch (fun s => s) parse_plaintext_content
        [(⟨"d0", "u0", "a", true⟩ : Document_Record)]).docs.map
        (List.map (remapFun ["a"]
          (runBatch (fun s => s) parse_plaintext_content
            [(⟨"d0", "u0", "a", true⟩ : Document_Record)]).terms)) ∧
    ∀ d ∈ (runBatch (fun s => s) parse_plaintext_content
        [(⟨"d0", "u0", "a", true⟩ : Document_Record)]).docs, ∀ old ∈ d,
      remapFun ["a"] (runBatch (fun s => s) parse_plaintext_content
        [(⟨"d0", "u0", "a", true⟩ : Document_Record)]).terms old <
        (["a"] : List String).length ∧
      (["a"] : List String).getD (remapFun ["a"]
        (runBatch (fun s => s) parse_plaintext_content
          [(⟨"d0", "u0", "a", true⟩ : Document_Record)]).terms old) "" =
        (runBatch (fun s => s) parse_plaintext_content
          [(⟨"d0", "u0", "a", true⟩ : Document_Record)]).terms.getD old "") :=
  ⟨by decide, by decide,
    C3_remap_to_global_ids (fun s => s) parse_plaintext_content
      [[⟨"d0", "u0", "a", true⟩]]
      (runBatch (fun s => s) parse_plaintext_content [⟨"d0", "u0", "a", true⟩])
      ["a"] (by decide) (by decide)⟩

/-- C4: the record pulled at position `k` becomes document `k` of the final
binary index (batches concatenated in batch order with their 8-byte headers
skipped), and its `trecid` and `url` occupy line `k` of `.documents` and
`.urls`. -/
theorem C4_document_order_preserved (pt : String → String)
    (pc : String → List String) (b : Int) (threads : Nat)
    (records : List Document_Record) (out : BuildOutput)
    (hout : build pt pc b threads records = some out)
    (k : Nat) (hk : k < records.length) :
    out.documents.length = records.length ∧
    out.documents.getD k "" = (records.getD k default).trecid ∧
    out.urls.getD k "" = (records.getD k default).url ∧
    (decodeDocs (out.index.drop 2)).length = records.length ∧
    (decodeDocs (out.index.drop 2)).getD k [] =
      (pc (records.getD k default).content).map
        (fun w => firstIdx out.terms (pt w)) := by
  rcases Nat.lt_or_ge threads 2 with hlt | hge
  · rw [build_aborts pt pc b hlt records] at hout
    cases hout
  · rw [build_canonical pt pc b threads records hge] at hout
    injection hout with hout
    subst hout
    refine ⟨by simp [canonicalOut], ?_, ?_, ?_, ?_⟩
    · show (records.map (·.trecid)).getD k "" = _
      rw [getD_map_doc _ _ records hk]
    · show (records.map (·.url)).getD k "" = _
      rw [getD_map_doc _ _ records hk]
    · show (decodeDocs ((indexFile records.length _).drop 2)).length = _
      rw [indexFile_drop2, decodeDocs_flatten, List.length_map]
    · show (decodeDocs ((indexFile records.length _).drop 2)).getD k [] = _
      rw [indexFile_drop2, decodeDocs_flatten, getD_map_doc _ _ records hk]
      rfl

/-- C4 (witness): the claim at a concrete input. -/
theorem C4_witness :
    (build (fun s => s) parse_plaintext_content 1 2
        [(⟨"d0", "u0", "x", true⟩ : Document_Record),
          ⟨"d1", "u1", "x y", true⟩] =
      some ⟨[1, 2, 1, 0, 2, 0, 1], ["d0", "d1"], ["u0", "u1"], ["x", "y"]⟩) ∧
    (1 < [(⟨"d0", "u0", "x", true⟩ : Document_Record),
      ⟨"d1", "u1", "x y", true⟩].length) ∧
    ((⟨[1, 2, 1, 0, 2, 0, 1], ["d0", "d1"], ["u0", "u1"],
        ["x", "y"]⟩ : BuildOutput).documents.length =
      [(⟨"d0", "u0", "x", true⟩ : Document_Record),
        ⟨"d1", "u1", "x y", true⟩].length ∧
    (⟨[1, 2, 1, 0, 2, 0, 1], ["d0", "d1"], ["u0", "u1"],
        ["x", "y"]⟩ : BuildOutput).documents.getD 1 "" =
      ([(⟨"d0", "u0", "x", true⟩ : Document_Record),
        ⟨"d1", "u1", "x y", true⟩].getD 1 default).trecid ∧
    (⟨[1, 2, 1, 0, 2, 0, 1], ["d0", "d1"], ["u0", "u1"],
        ["x", "y"]⟩ : BuildOutput).urls.getD 1 "" =
      ([(⟨"d0", "u0", "x", true⟩ : Document_Record),
        ⟨"d1", "u1", "x y", true⟩].getD 1 default).url ∧
    (decodeDocs ((⟨[1, 2, 1, 0, 2, 0, 1], ["d0", "d1"], ["u0", "u1"],
        ["x", "y"]⟩ : BuildOutput).index.drop 2)).length =
      [(⟨"d0", "u0", "x", true⟩ : Document_Record),
        ⟨"d1", "u1", "x y", true⟩].length ∧
    (decodeDocs ((⟨[1, 2, 1, 0, 2, 0, 1], ["d0", "d1"], ["u0", "u1"],
        ["x", "y"]⟩ : BuildOutput).index.drop 2)).getD 1 [] =
      (parse_plaintext_content ([(⟨"d0", "u0", "x", true⟩ : Document_Record),
        ⟨"d1", "u1", "x y", true⟩].getD 1 default).content).map
        (fun w => firstIdx (⟨[1, 2, 1, 0, 2, 0, 1], ["d0", "d1"],
          ["u0", "u1"], ["x", "y"]⟩ : BuildOutput).terms ((fun s => s) w))) :=
  ⟨by decide, by decide,
    C4_document_order_preserved (fun s => s) parse_plaintext_content 1 2
      [⟨"d0", "u0", "x", true⟩, ⟨"d1", "u1", "x y", true⟩]
      ⟨[1, 2, 1, 0, 2, 0, 1], ["d0", "d1"], ["u0", "u1"], ["x", "y"]⟩
      (by decide) 1 (by decide)⟩

/-- C5: with a fixed input stream and fixed deterministic callbacks, any two
runs of `build` with valid configurations — different thread counts (≥ 2)
and different batch sizes — produce identical output files. -/
theorem C5_build_deterministic (pt : String → String)
    (pc : String → List String) (b1 b2 : Int) (t1 t2 : Nat)
    (records : List Document_Record)
    (hb1 : 1 ≤ b1) (hb2 : 1 ≤ b2) (ht1 : 2 ≤ t1) (ht2 : 2 ≤ t2) :
    build pt pc b1 t1 records = build pt pc b2 t2 records := by
  rw [build_canonical pt pc b1 t1 records ht1,
    build_canonical pt pc b2 t2 records ht2]

/-- C5 (witness): determinism at a concrete input. -/
theorem C5_witness :
    ((1 : Int) ≤ 2) ∧ ((1 : Int) ≤ 3) ∧ (2 ≤ 2) ∧ (2 ≤ 16) ∧
    build (fun s => s) parse_plaintext_content 2 2
        [(⟨"d0", "u0", "x", true⟩ : Document_Record),
          ⟨"d1", "u1", "x y", true⟩] =
      build (fun s => s) parse_plaintext_content 3 16
        [(⟨"d0", "u0", "x", true⟩ : Document_Record),
          ⟨"d1", "u1", "x y", true⟩] :=
  ⟨by decide, by decide, by decide, by decide,
    C5_build_deterministic (fun s => s) parse_plaintext_content 2 3 2 16
      [⟨"d0", "u0", "x", true⟩, ⟨"d1", "u1", "x y", true⟩]
      (by decide) (by decide) (by decide) (by decide)⟩

/-- C6 (counterexample): a term the normalizer maps to the empty string is
not dropped: with the normalizer constantly `""`, the batch `.terms` file
holds the empty line, the empty term is assigned local id 0, and both raw
terms of the document contribute entries `[0, 0]`. -/
theorem C6_counterexample :
    (fun (_ : String) => "") "a" = "" ∧
    runBatch (fun _ => "") parse_plaintext_content
        [(⟨"d0", "u0", "a b", true⟩ : Document_Record)] =
      ⟨1, [[0, 0]], ["d0"], ["u0"], [""]⟩ :=
  ⟨rfl, by decide⟩

/-- C6 (amended): the batch processor treats a term normalized to the empty
string like any other term: every raw term the splitter emits contributes
exactly one entry to its document's term-id sequence, and its normalized
form (empty or not) appears in the batch `.terms` file. -/
theorem C6_empty_terms_not_dropped (pt : String → String)
    (pc : String → List String) (records : List Document_Record) :
    ((runBatch pt pc records).docs.map List.length) =
      records.map (fun r => (pc r.content).length) ∧
    ∀ r ∈ records, ∀ w ∈ pc r.content,
      pt w ∈ (runBatch pt pc records).terms := by
  obtain ⟨tf, heq, hnd, hmem⟩ := runBatch_spec pt pc records
  constructor
  · rw [heq]
    simp [List.map_map, Function.comp_def]
  · intro r hr w hw
    have : pt w ∈ tf := (hmem _).mpr ⟨r, hr, w, hw, rfl⟩
    rw [heq]
    exact this

/-- C7 (counterexample): `parse_html_content` applies the blank-line
header heuristic to the *raw* content and the HTML cleaner only afterwards;
with a cleaner that strips tags, the content `"a\n<br>\nb"` has no raw
blank line (the `<` stops the whitespace scan), so the source emits
nothing, while the claimed clean-first order finds the blank line the
cleaner exposes and emits `["b"]`. -/
theorem C7_counterexample :
    parse_html_content cleanHtml "a\n<br>\nb" = [] ∧
    parse_html_content_claimed cleanHtml "a\n<br>\nb" = ["b"] ∧
    parse_html_content cleanHtml "a\n<br>\nb" ≠
      parse_html_content_claimed cleanHtml "a\n<br>\nb" :=
  ⟨by decide, by decide, by decide⟩

/-- C7 (amended): for every content string, `parse_html_content` first
drops everything up to the first blank line of the *raw* content (yielding
the empty remainder when there is none), then strips tags/entities via the
HTML cleaner, and then emits exactly the maximal runs of ASCII alphanumeric
characters of the result, in document order (where the emission loop is
characterized by the independent single-pass scanner `runsSpec`). -/
theorem C7_header_drop_before_clean (cleantext : String → String)
    (content : String) :
    parse_html_content cleantext content =
      runsSpec [] (cleantext (String.mk (findNL content.data))).data := by
  rw [parse_html_content, alnumRuns_eq_runsSpec]

/-- C8 (counterexample): `build` does not validate `batch_size`: with
`batch_size = 0 ≤ 0` and `threads = 2` the configuration check passes and
the build completes. -/
theorem C8_counterexample :
    build (fun s => s) parse_plaintext_content 0 2 [] =
      some ⟨[1, 0], [], [], []⟩ ∧ (0 : Int) ≤ 0 :=
  ⟨by decide, by decide⟩

/-- C8 (amended): `build` aborts at startup exactly when `threads < 2`;
`batch_size` is never validated (a nonpositive `batch_size` simply makes
the comparison `record_batch.size() == batch_size` never fire, so all
records end up in the single final batch). -/
theorem C8_abort_iff_threads (pt : String → String)
    (pc : String → List String) (b : Int) (threads : Nat)
    (records : List Document_Record) :
    build pt pc b threads records = none ↔ threads < 2 := by
  constructor
  · intro h
    by_contra hge
    rw [Nat.not_lt] at hge
    rw [build_canonical pt pc b threads records hge] at h
    cases h
  · intro h
    exact build_aborts pt pc b h records

/-- C9: the `Expects(lhs.last == rhs.first)` assertion in `merge_spans`
never fires: on every list of batch `.terms` files, every merge —
during equal-level pushes and during the final drain — is of two adjacent
spans, so `collect_terms` always returns a result (`none` models the
assertion firing). -/
theorem C9_expects_never_fires (batches : List (List String)) :
    (collect_terms batches).isSome = true := by
  obtain ⟨ts, h⟩ := collect_terms_total batches
  rw [h]
  rfl

/-- C10: the remapping phase rewrites only the term-id payload words of a
batch binary index file: the two header words (`uint32 1`, `uint32
doc_count`) are untouched, and the decoded document lengths — hence the
document count and every document's term count — are identical before and
after remapping. -/
theorem C10_remap_preserves_layout (f : Nat → Nat) (count : Nat)
    (docs : List (List Nat)) :
    remapFile f (indexFile count docs) =
      indexFile count (docs.map (List.map f)) ∧
    (remapFile f (indexFile count docs)).take 2 = [1, count] ∧
    (decodeDocs ((remapFile f (indexFile count docs)).drop 2)).map
        List.length = docs.map List.length := by
  refine ⟨remapFile_indexFile f count docs, ?_, ?_⟩
  · rw [remapFile_indexFile]
    rfl
  · rw [remapFile_indexFile, indexFile_drop2, decodeDocs_flatten]
    simp [List.map_map, Function.comp_def]

end PisaFwd
